import Mathlib

/-!
Verification of the labeled-array core of hftools (hftools/dataset/arrayobj.py).

The numeric buffer (numpy ndarray) is embedded as a flat row-major list of
elements together with a shape; dimension descriptors (hftools/dataset/dim.py,
whose source is not in this tree) are modelled from the specification's data
model: a descriptor is a name, a closed variant tag, a coordinate list and an
optional unit, with identity given by (name, variant) and a sort priority
determined by the variant.
-/

namespace HFT

/-- Modelled from the spec: the closed set of dimension-variant tags
(Sweep, Repetition, MatrixRow, MatrixColumn, UnsortedMatrixRow,
UnsortedMatrixColumn, Partial, Anonymous).  The source file
hftools/dataset/dim.py defining the corresponding classes is not in src/. -/
inductive Variant : Type
  | sweep
  | rep
  | matI
  | matJ
  | umatI
  | umatJ
  | partv
  | anon
deriving DecidableEq, Repr

/-- Modelled from the spec: a dimension descriptor with name, variant tag,
coordinate array and optional unit (hftools/dataset/dim.py is not in src/).
Identity for the algebra is the (name, variant) pair. -/
structure Dim : Type where
  name : String
  variant : Variant
  data : List Int
  unit : Option String := none
deriving DecidableEq, Repr

instance : Inhabited Dim := ⟨{ name := "", variant := Variant.anon, data := [] }⟩

/-- Modelled from the spec: the sort priority is an integer determined by the
variant tag (the spec says the variant determines the ordering priority; the
exact integers are an implementation detail of the missing dim.py). -/
def sortprioOf : Variant → Int
  | Variant.sweep => 1
  | Variant.rep => 2
  | Variant.partv => 3
  | Variant.umatI => 4
  | Variant.umatJ => 5
  | Variant.matI => 6
  | Variant.matJ => 7
  | Variant.anon => 8

def Dim.sortprio (d : Dim) : Int := sortprioOf d.variant

/-- Identity test of two descriptors: same name and same variant
(arrayobj.py matches x.name == value.name and isinstance(x, value.__class__);
with leaf variant classes this is name+variant equality). -/
def sameDim (a b : Dim) : Bool := a.name == b.name && a.variant == b.variant

/-- Dims.__contains__ / DimsList.__contains__ of arrayobj.py: membership by
identity. -/
def dimsContains (l : List Dim) (d : Dim) : Bool := l.any (fun x => sameDim x d)

/-- Dims.matching_index of arrayobj.py: position of the first member sharing
identity with the probe, if any. -/
def matching_index (l : List Dim) (d : Dim) : Option Nat :=
  l.findIdx? (fun x => sameDim x d)

/-- Dims.get_matching_dim of arrayobj.py. -/
def get_matching_dim (l : List Dim) (d : Dim) : Option Dim :=
  l.find? (fun x => sameDim x d)

/-- Error taxonomy of the library (HFArrayShapeDimsMismatchError,
DimensionMismatchError, IndexError, numpy ValueError, HFArrayError). -/
inductive Err : Type
  | shapeDimsMismatch
  | dimensionMismatch
  | indexError
  | valueError
  | hfError
deriving DecidableEq, Repr

/-- The dense numeric buffer: a shape together with the flat row-major list of
elements (the embedding of numpy ndarray). -/
structure NDArray (α : Type) : Type where
  shape : List Nat
  data : List α
deriving DecidableEq, Repr

namespace NDArray

def rank (a : NDArray α) : Nat := a.shape.length

/-- Row-major flat offset of a multi-index. -/
def encode : List Nat → List Nat → Nat
  | _ :: s, i :: is => i * s.prod + encode s is
  | _, _ => 0

/-- All multi-indices of a shape, in row-major order. -/
def allIdx : List Nat → List (List Nat)
  | [] => [[]]
  | n :: s => (List.range n).flatMap (fun i => (allIdx s).map (fun t => i :: t))

/-- Build an array from a shape and an element function. -/
def ofFun (s : List Nat) (f : List Nat → α) : NDArray α :=
  ⟨s, (allIdx s).map f⟩

/-- Element at a multi-index. -/
def get [Inhabited α] (a : NDArray α) (idx : List Nat) : α :=
  a.data.getD (encode a.shape idx) default

/-- Wellformedness: the flat data has exactly one element per multi-index. -/
def wf (a : NDArray α) : Prop := a.data.length = a.shape.prod


end NDArray

/-- The labeled array: numpy buffer plus dimension collection
(class _hfarray of arrayobj.py). -/
structure HFArray (α : Type) : Type where
  buf : NDArray α
  dims : List Dim
deriving DecidableEq, Repr

namespace HFArray

def ndim (A : HFArray α) : Nat := A.buf.rank

def shape (A : HFArray α) : List Nat := A.buf.shape

/-- Wellformedness: the rank invariant (verify_dimension) plus a flat buffer
of the right length. -/
def wf (A : HFArray α) : Prop := A.dims.length = A.buf.rank ∧ A.buf.wf

end HFArray

/-- _hfarray.default_dim of arrayobj.py: DimSweep freq and DimRep rep. -/
def default_dim : List (String × Variant) :=
  [("freq", Variant.sweep), ("rep", Variant.rep)]

/-- _hfarray.__new__ of arrayobj.py: attach the given dims, or synthesize
defaults for rank at most 2, then verify_dimension (raising
HFArrayShapeDimsMismatchError when the lengths differ, and
DimensionMismatchError when rank exceeds 2 with no dims given). -/
def hfnew (buf : NDArray α) (dims : Option (List Dim)) :
    Except Err (HFArray α) :=
  match dims with
  | some d =>
      if d.length = buf.rank then Except.ok ⟨buf, d⟩
      else Except.error Err.shapeDimsMismatch
  | none =>
      if buf.rank = 0 then Except.ok ⟨buf, []⟩
      else if buf.rank ≤ 2 then
        let d := (default_dim.zip buf.shape).map (fun p =>
          { name := p.1.1, variant := p.1.2,
            data := (List.range p.2).map Int.ofNat : Dim })
        if d.length = buf.rank then Except.ok ⟨buf, d⟩
        else Except.error Err.shapeDimsMismatch
      else Except.error Err.dimensionMismatch

/-- The dims property setter of arrayobj.py (lines 298-300): it replaces the
collection without any re-validation. -/
def setDims (A : HFArray α) (d : List Dim) : HFArray α := ⟨A.buf, d⟩

/-- numpy ndarray.transpose by an axis order: result axis j is source axis
order[j]. -/
def NDArray.transposeA [Inhabited α] (a : NDArray α) (order : List Nat) :
    NDArray α :=
  NDArray.ofFun (order.map (fun i => a.shape.getD i 0))
    (fun idx => a.get ((List.range a.rank).map
      (fun k => idx.getD (order.indexOf k) 0)))

/-- _hfarray.transpose of arrayobj.py: empty order means reversed axes;
buffer and dims are permuted identically. -/
def hftranspose [Inhabited α] (A : HFArray α) (order : List Nat) :
    HFArray α :=
  let ord := if order.isEmpty then (List.range A.ndim).reverse else order
  ⟨A.buf.transposeA ord, ord.map (fun i => A.dims.getD i default)⟩

/-- _hfarray.reorder_dimensions of arrayobj.py: move the listed dims to the
front, keep the rest in relative order, via transpose. -/
def reorder_dimensions [Inhabited α] (A : HFArray α) (order : List Dim) :
    HFArray α :=
  let rest := A.dims.filter (fun d => ¬ order.contains d)
  hftranspose A (order.map (fun d => A.dims.indexOf d) ++
    rest.map (fun d => A.dims.indexOf d))

/-- dims_union of arrayobj.py before sorting: start from the first operand's
dims, append each later dim not already present by identity. -/
def dimsAccum (arrs : List (HFArray α)) : List Dim :=
  match arrs with
  | [] => []
  | a :: rest => rest.foldl (fun ni b => b.dims.foldl
      (fun ni2 d => if dimsContains ni2 d then ni2 else ni2 ++ [d]) ni) a.dims

/-- Comparison by sort priority, the key of the final stable sort of
dims_union. -/
def prioLe (a b : Dim) : Prop := a.sortprio ≤ b.sortprio

instance : DecidableRel prioLe := fun a b =>
  inferInstanceAs (Decidable (a.sortprio ≤ b.sortprio))

instance : IsTotal Dim prioLe := ⟨fun a b => Int.le_total a.sortprio b.sortprio⟩

instance : IsTrans Dim prioLe := ⟨fun _ _ _ h1 h2 => le_trans h1 h2⟩

/-- dims_union of arrayobj.py: accumulate, then stable-sort by sortprio
(Python list.sort is stable; insertion sort with a non-strict comparison is
the same stable sort). -/
def dims_union (arrs : List (HFArray α)) : List Dim :=
  List.insertionSort prioLe (dimsAccum arrs)

/-- One step of change_shape's loop: the size recorded for a target dim
(the array's own size when it owns a matching dim, else the synthetic
broadcast size 1). -/
def dimSizeIn (x : HFArray α) (d : Dim) : Nat :=
  match matching_index x.dims d with
  | some i => x.buf.shape.getD i 0
  | none => 1

/-- change_shape of arrayobj.py: record the size (or 1) for every target dim,
transpose the owned dims into target order, then reinterpret the buffer shape
with size-1 axes inserted and attach the target dims. -/
def change_shape [Inhabited α] (x : HFArray α) (newdims : List Dim) :
    HFArray α :=
  let newselfshape := newdims.map (fun d => dimSizeIn x d)
  let neworder := newdims.filterMap (fun d => matching_index x.dims d)
  let t := hftranspose x neworder
  ⟨⟨newselfshape, t.buf.data⟩, newdims⟩

/-- The components of a target multi-index at the positions whose target dim
is owned (the index correspondence between the reshaped buffer and the
transposed buffer of change_shape). -/
def compressIdx (m : Dim → Option Nat) : List Dim → List Nat → List Nat
  | d :: L, i :: is => (if (m d).isSome then [i] else []) ++ compressIdx m L is
  | _, _ => []

/-- make_same_dims_list of arrayobj.py. -/
def make_same_dims_list [Inhabited α] (a : List (HFArray α)) :
    List (HFArray α) :=
  let newdims := dims_union a
  a.map (fun x => change_shape x newdims)

/-- make_same_dims of arrayobj.py (for two labeled operands). -/
def make_same_dims [Inhabited α] (A B : HFArray α) : List (HFArray α) :=
  make_same_dims_list [A, B]

/-- Broadcast index: a size-1 axis always reads position 0. -/
def bidx (s idx : List Nat) : List Nat :=
  List.zipWith (fun n i => if n = 1 then 0 else i) s idx

/-- numpy elementwise binary operation with broadcasting of size-1 axes
(both operands already aligned to the same rank). -/
def NDArray.bcastZip [Inhabited α] [Inhabited β] [Inhabited γ]
    (f : α → β → γ) (a : NDArray α) (b : NDArray β) : NDArray γ :=
  NDArray.ofFun (List.zipWith max a.shape b.shape)
    (fun idx => f (a.get (bidx a.shape idx)) (b.get (bidx b.shape idx)))

/-- _hfarray.__add__ of arrayobj.py through the check_instance wrapper: for a
labeled right operand, align both through make_same_dims, then delegate to
the numpy elementwise add; the result inherits the first aligned operand's
dims (via __array_finalize__). -/
def hfadd (A B : HFArray Int) : HFArray Int :=
  match make_same_dims A B with
  | [a, b] => ⟨NDArray.bcastZip (· + ·) a.buf b.buf, a.dims⟩
  | _ => A

/-- Modelled from the spec: the align-then-combine side of the refinement
claim, stated as its own composition: reshape both operands to the dims
union, then combine elementwise (the spec's explicit alignment recipe). -/
def alignThenCombineSpec (A B : HFArray Int) : HFArray Int :=
  let u := dims_union [A, B]
  let A2 := change_shape A u
  let B2 := change_shape B u
  ⟨NDArray.bcastZip (· + ·) A2.buf B2.buf, A2.dims⟩

/-- An axis specifier element: integer position (Python int, so possibly
negative), dimension name, dimension-variant tag (a DimBase subclass in the
source), or a dimension instance. -/
inductive AxElem : Type
  | pos (i : Int)
  | name (s : String)
  | tag (v : Variant)
  | inst (d : Dim)
deriving DecidableEq, Repr

/-- An axis argument: None, a single element, or a sequence of elements. -/
inductive AxSpec : Type
  | noneAx
  | single (e : AxElem)
  | multi (l : List AxElem)
deriving DecidableEq, Repr

/-- Python tuple indexing of the dims collection with a possibly negative
integer (IndexError outside the range). -/
def pyGetDim (dims : List Dim) (i : Int) : Except Err Dim :=
  let n : Int := dims.length
  if 0 ≤ i ∧ i < n then Except.ok (dims.getD i.toNat default)
  else if -n ≤ i ∧ i < 0 then Except.ok (dims.getD (i + n).toNat default)
  else Except.error Err.indexError

/-- _hfarray.dims_index of arrayobj.py (name lookup, first match, IndexError
when absent). -/
def dims_index (dims : List Dim) (nm : String) : Except Err Nat :=
  match dims.findIdx? (fun ax => ax.name == nm) with
  | some i => Except.ok i
  | none => Except.error Err.indexError

/-- axis_handler of arrayobj.py: resolve one axis specifier to a dimension.
A variant tag resolves only when exactly one member matches; zero or several
matches raise IndexError. -/
def axis_handler (A : HFArray α) (axis : Option AxElem) :
    Except Err (Option Dim) :=
  match axis with
  | none => Except.ok none
  | some (AxElem.pos i) => do
      let d ← pyGetDim A.dims i
      Except.ok (some d)
  | some (AxElem.name s) => do
      let i ← dims_index A.dims s
      let d := A.dims.getD i default
      if dimsContains A.dims d then Except.ok (some d)
      else Except.error Err.indexError
  | some (AxElem.tag v) =>
      match A.dims.filter (fun d => d.variant == v) with
      | [d] => Except.ok (some d)
      | _ => Except.error Err.indexError
  | some (AxElem.inst d) =>
      if dimsContains A.dims d then Except.ok (some d)
      else Except.error Err.indexError

/-- One element of multiple_axis_handler's loop: note that a variant tag
collects ALL matching dims with their positions, with no error for zero or
several matches. -/
def resolveOne (A : HFArray α) (e : AxElem) :
    Except Err (List Dim × List Int) :=
  match e with
  | AxElem.pos i => do
      let d ← pyGetDim A.dims i
      Except.ok ([d], [i])
  | AxElem.name s => do
      let i ← dims_index A.dims s
      let d := A.dims.getD i default
      if dimsContains A.dims d then
        match matching_index A.dims d with
        | some j => Except.ok ([d], [(j : Int)])
        | none => Except.error Err.indexError
      else Except.error Err.indexError
  | AxElem.tag v =>
      Except.ok ((A.dims.enum.filterMap (fun p =>
        if p.2.variant == v then some (p.2, (p.1 : Int)) else none)).unzip)
  | AxElem.inst d =>
      if dimsContains A.dims d then
        match matching_index A.dims d with
        | some j => Except.ok ([d], [(j : Int)])
        | none => Except.error Err.indexError
      else Except.error Err.indexError

/-- The loop body of multiple_axis_handler over a list of elements. -/
def mahGo (A : HFArray α) : List AxElem → Except Err (List Dim × List Int)
  | [] => Except.ok ([], [])
  | e :: rest => do
      let p ← resolveOne A e
      let q ← mahGo A rest
      Except.ok (p.1 ++ q.1, p.2 ++ q.2)

/-- multiple_axis_handler of arrayobj.py: None passes through; a single
element is wrapped into a one-element sequence. -/
def multiple_axis_handler (A : HFArray α) (axis : AxSpec) :
    Except Err (Option (List Dim × List Int)) :=
  match axis with
  | AxSpec.noneAx => Except.ok none
  | AxSpec.single e => do Except.ok (some (← mahGo A [e]))
  | AxSpec.multi l => do Except.ok (some (← mahGo A l))

/-- numpy axis normalization: negative axes count from the end; out of range
raises. -/
def normAxis (r : Nat) (i : Int) : Except Err Nat :=
  if 0 ≤ i ∧ i < (r : Int) then Except.ok i.toNat
  else if -(r : Int) ≤ i ∧ i < 0 then Except.ok (i + r).toNat
  else Except.error Err.valueError

/-- numpy sum over a set of (already normalized) axes with keepdims=True. -/
def npSumKeepNorm (a : NDArray Int) (axes : List Nat) : NDArray Int :=
  NDArray.ofFun (a.shape.enum.map (fun p => if axes.contains p.1 then 1 else p.2))
    (fun idx => (NDArray.allIdx a.shape).foldl (fun acc j =>
      if (List.range a.rank).all
          (fun k => axes.contains k || (j.getD k 0 == idx.getD k 0))
      then acc + a.get j else acc) 0)

/-- numpy sum over a tuple of raw (possibly negative) axes with
keepdims=True: normalize, reject duplicates, then reduce. -/
def npSumInt (a : NDArray Int) (axes : List Int) : Except Err (NDArray Int) := do
  let norm ← axes.mapM (normAxis a.rank)
  if norm.Nodup then Except.ok (npSumKeepNorm a norm)
  else Except.error Err.valueError

/-- numpy squeeze with axis=None: drop every size-1 axis (flat data is
unchanged). -/
def npSqueezeAll (a : NDArray α) : NDArray α :=
  ⟨a.shape.filter (fun n => n ≠ 1), a.data⟩

/-- numpy squeeze with an explicit axis tuple: normalize, reject duplicates,
require each selected axis to have size 1, then drop those axes. -/
def npSqueezeAxes (a : NDArray α) (axes : List Int) :
    Except Err (NDArray α) := do
  let norm ← axes.mapM (normAxis a.rank)
  if norm.Nodup then
    if norm.all (fun k => a.shape.getD k 0 == 1) then
      Except.ok ⟨a.shape.enum.filterMap (fun p =>
        if norm.contains p.1 then none else some p.2), a.data⟩
    else Except.error Err.valueError
  else Except.error Err.valueError

/-- _hfarray.squeeze of arrayobj.py: resolve the axes, squeeze the buffer,
filter the dims by enumeration position, and rebuild through the validating
constructor. -/
def squeezeHF [Inhabited α] (A : HFArray α) (axis : AxSpec) :
    Except Err (HFArray α) := do
  match ← multiple_axis_handler A axis with
  | none =>
      hfnew (npSqueezeAll A.buf) (some (A.dims.enum.filterMap (fun p =>
        if A.buf.shape.getD p.1 0 = 1 then none else some p.2)))
  | some (_, idxs) => do
      let b ← npSqueezeAxes A.buf idxs
      hfnew b (some (A.dims.enum.filterMap (fun p =>
        if idxs.contains ((p.1 : Int)) then none else some p.2)))

/-- _hfarray.sum of arrayobj.py: resolve the axes (IndexError optionally
swallowed when dimerror is false), reduce with keepdims internally, rebuild
with the original dims, and squeeze the reduced axes unless keepdims. -/
def sumHF (A : HFArray Int) (axis : AxSpec) (keepdims dimerror : Bool) :
    Except Err (HFArray Int) :=
  match multiple_axis_handler A axis with
  | Except.error e => if dimerror then Except.error e else Except.ok A
  | Except.ok none => do
      let r := npSumKeepNorm A.buf (List.range A.buf.rank)
      let res ← hfnew r (some A.dims)
      if keepdims then Except.ok res else squeezeHF res AxSpec.noneAx
  | Except.ok (some pr) => do
      let r ← npSumInt A.buf pr.2
      let res ← hfnew r (some A.dims)
      if keepdims then Except.ok res
      else squeezeHF res (AxSpec.multi (pr.2.map AxElem.pos))

/-- numpy newaxis insertion at a position (flat data unchanged). -/
def npInsertAxis (a : NDArray α) (pos : Nat) : NDArray α :=
  ⟨a.shape.insertIdx pos 1, a.data⟩

/-- numpy repeat of each element along an axis. -/
def npRepeat [Inhabited α] (a : NDArray α) (cnt : Nat) (axis : Nat) :
    NDArray α :=
  NDArray.ofFun (a.shape.enum.map (fun p => if p.1 = axis then cnt * p.2 else p.2))
    (fun idx => a.get (idx.enum.map (fun p => if p.1 = axis then p.2 / cnt else p.2)))

/-- _hfarray.add_dim of arrayobj.py: no-op for None or an already present
dimension; otherwise insert a size-1 axis (broadcast-repeated when the new
dim has more than one coordinate) and the dim, rebuilding through the
validating constructor. -/
def add_dim [Inhabited α] (A : HFArray α) (dim : Option Dim) (axis : Nat) :
    Except Err (HFArray α) :=
  match dim with
  | none => Except.ok A
  | some d =>
      if dimsContains A.dims d then Except.ok A
      else
        let ax := min axis A.ndim
        let b1 := npInsertAxis A.buf ax
        let b2 := if d.data.length > 1 then npRepeat b1 d.data.length ax else b1
        hfnew b2 (some (A.dims.insertIdx ax d))

/-- The multi-indices of a boolean mask that hold true, in row-major order
(the order numpy boolean fancy indexing selects). -/
def truePosND (m : NDArray Bool) : List (List Nat) :=
  (NDArray.allIdx m.shape).filter (fun j => m.get j = true)

/-- numpy boolean fancy indexing of the axes starting at position start with
a boolean mask covering the next m.rank axes: they collapse to one axis
enumerating the selected positions. -/
def selectAxes [Inhabited α] (a : NDArray α) (start : Nat) (m : NDArray Bool) :
    NDArray α :=
  let tp := truePosND m
  NDArray.ofFun
    (a.shape.take start ++ [tp.length] ++ a.shape.drop (start + m.rank))
    (fun idx => a.get (idx.take start ++ tp.getD (idx.getD start 0) [] ++
      idx.drop (start + 1)))

/-- get_new_anonymous_dim of arrayobj.py: scan for ANON-prefixed anonymous
dims and pick one past the maximum suffix (coordinates 0..cnt-1; the missing
dim.py turns the integer argument into a coordinate range, per the spec's
coordinate-length rule). -/
def get_new_anonymous_dim (dims : List Dim) (cnt : Nat) : Dim :=
  let anon_names := dims.filterMap (fun d =>
    if d.variant == Variant.anon && d.name.startsWith "ANON"
    then (d.name.drop 4).toNat? else none)
  let m := anon_names.foldl max 0
  { name := "ANON" ++ toString (m + 1), variant := Variant.anon,
    data := (List.range cnt).map Int.ofNat }

/-- The boolean-indexing branch of _hfarray.__getitem__ (arrayobj.py lines
498-523): reorder the dims not owned by the mask ahead of the mask's dims,
select with the mask, and collapse the matched dims into either the relabeled
single mask dim or a fresh anonymous dim. -/
def getitem_bool [Inhabited α] (A : HFArray α) (mask : HFArray Bool) :
    Except Err (HFArray α) :=
  let reorder := A.dims.takeWhile (fun dim => ¬ dimsContains mask.dims dim)
  let reorder2 := reorder ++ mask.dims
  let reordered := reorder_dimensions A reorder2
  let newdim : Dim :=
    match mask.dims with
    | [dim] =>
        { dim with
          data := (dim.data.zip mask.buf.data).filterMap
            (fun p => if p.2 then some p.1 else none) }
    | _ => get_new_anonymous_dim A.dims (truePosND mask.buf).length
  let dims := reordered.dims.take reorder.length ++ [newdim] ++
    reordered.dims.drop (reorder.length + mask.dims.length)
  hfnew (selectAxes reordered.buf reorder.length mask.buf) (some dims)

/-- The matrix-transpose property _hfarray.t of arrayobj.py: find the last
DimMatrix_i and DimMatrix_j members; when either is missing return the array
itself; otherwise swap the two axes and swap the coordinate data between the
two (relabeled) matrix dims.  The name lookups mirror dims_index. -/
def hft [Inhabited α] (A : HFArray α) : HFArray α :=
  let di := A.dims.foldl (fun acc d =>
    if d.variant == Variant.matI then some d else acc) none
  let dj := A.dims.foldl (fun acc d =>
    if d.variant == Variant.matJ then some d else acc) none
  match di, dj with
  | some di, some dj =>
      match dims_index A.dims di.name, dims_index A.dims dj.name with
      | Except.ok i, Except.ok j =>
          let order := ((List.range A.ndim).set i j).set j i
          let out := hftranspose A order
          let nd1 : Dim :=
            { name := di.name, variant := Variant.matI, data := dj.data }
          let nd2 : Dim :=
            { name := dj.name, variant := Variant.matJ, data := di.data }
          setDims out ((out.dims.set i nd1).set j nd2)
      | _, _ => A
  | _, _ => A

/-- A sweep dimension over two frequencies, used in concrete instances. -/
def exFreq : Dim := { name := "freq", variant := Variant.sweep, data := [1, 2] }

/-- A sweep dimension over three frequencies. -/
def exFreq3 : Dim := { name := "freq", variant := Variant.sweep, data := [1, 2, 3] }

/-- A repetition dimension with two coordinates. -/
def exRep2 : Dim := { name := "rep", variant := Variant.rep, data := [0, 1] }

/-- A repetition dimension with three coordinates. -/
def exRep3 : Dim := { name := "rep", variant := Variant.rep, data := [0, 1, 2] }

/-- A second repetition dimension (same variant, different name). -/
def exRepB : Dim := { name := "rep2", variant := Variant.rep, data := [0, 1, 2] }

/-- Concrete 1-d labeled array over exFreq. -/
def exA1 : HFArray Int := ⟨⟨[2], [10, 20]⟩, [exFreq]⟩

/-- Concrete 1-d labeled array over exRep3. -/
def exB1 : HFArray Int := ⟨⟨[3], [1, 2, 3]⟩, [exRep3]⟩

/-- Concrete 3x2 labeled array over exFreq3 and exRep2. -/
def exC2 : HFArray Int := ⟨⟨[3, 2], [1, 2, 3, 4, 5, 6]⟩, [exFreq3, exRep2]⟩

/-- Concrete 2x3 labeled array with two same-variant dims. -/
def exE2 : HFArray Int := ⟨⟨[2, 3], [1, 2, 3, 4, 5, 6]⟩, [exRep2, exRepB]⟩

/-- Concrete 1-d boolean mask over exFreq3. -/
def exM1 : HFArray Bool := ⟨⟨[3], [false, true, true]⟩, [exFreq3]⟩

/-- Concrete 1-d labeled array over exFreq3 for boolean indexing. -/
def exA3 : HFArray Int := ⟨⟨[3], [5, 7, 9]⟩, [exFreq3]⟩

namespace NDArray

theorem getD_eq_getElem {α : Type} (l : List α) (d : α) (k : Nat)
    (h : k < l.length) : l.getD k d = l[k] := by
  rw [List.getD_eq_getElem?_getD, List.getElem?_eq_getElem h]
  rfl

theorem getD_map_lt {α β : Type} (f : α → β) (l : List α) (k : Nat)
    (h : k < l.length) (d0 : β) (d1 : α) :
    (l.map f).getD k d0 = f (l.getD k d1) := by
  rw [List.getD_eq_getElem?_getD, List.getElem?_map,
    List.getElem?_eq_getElem h, List.getD_eq_getElem?_getD,
    List.getElem?_eq_getElem h]
  rfl

theorem length_allIdx (s : List Nat) : (allIdx s).length = s.prod := by
  induction s with
  | nil => simp [allIdx]
  | cons n s ih =>
      simp only [allIdx, List.length_flatMap, List.prod_cons]
      have h1 : List.map (List.length ∘ fun i => List.map (fun t => i :: t)
          (allIdx s)) (List.range n) = List.map (fun _ => s.prod)
          (List.range n) := by
        apply List.map_congr_left
        intro i _
        simp [ih]
      rw [h1, List.map_const', List.sum_replicate, smul_eq_mul,
        List.length_range]

theorem mem_allIdx : ∀ (s idx : List Nat),
    idx ∈ allIdx s ↔ List.Forall₂ (fun i n => i < n) idx s := by
  intro s
  induction s with
  | nil =>
      intro idx
      constructor
      · intro h
        simp [allIdx] at h
        subst h
        exact List.Forall₂.nil
      · intro h
        cases h
        simp [allIdx]
  | cons n s ih =>
      intro idx
      constructor
      · intro h
        simp only [allIdx, List.mem_flatMap, List.mem_map, List.mem_range] at h
        obtain ⟨i, hi, t, ht, rfl⟩ := h
        exact List.Forall₂.cons hi ((ih t).mp ht)
      · intro h
        cases h with
        | cons hi ht =>
            simp only [allIdx, List.mem_flatMap, List.mem_map, List.mem_range]
            exact ⟨_, hi, _, (ih _).mpr ht, rfl⟩

theorem getD_flatMap_range_blocks {α : Type} (g : Nat → List α) (P : Nat)
    (hg : ∀ i, (g i).length = P) :
    ∀ (n i e : Nat), i < n → e < P → ∀ d,
      ((List.range n).flatMap g).getD (i * P + e) d = (g i).getD e d := by
  intro n
  induction n with
  | zero => intro i e hi _ _; exact absurd hi (Nat.not_lt_zero i)
  | succ n ih =>
      intro i e hi he d
      rw [List.range_succ, List.flatMap_append, List.flatMap_singleton]
      have hlen : ((List.range n).flatMap g).length = n * P := by
        rw [List.length_flatMap]
        have h1 : List.map (List.length ∘ g) (List.range n) =
            List.map (fun _ => P) (List.range n) := by
          apply List.map_congr_left
          intro i _
          exact hg i
        rw [h1, List.map_const', List.sum_replicate, smul_eq_mul,
          List.length_range]
      rcases Nat.lt_or_ge i n with hin | hin
      · have hidx : i * P + e < ((List.range n).flatMap g).length := by
          rw [hlen]
          calc i * P + e < i * P + P := by omega
            _ = (i + 1) * P := by ring
            _ ≤ n * P := Nat.mul_le_mul_right P hin
        rw [List.getD_append _ _ _ _ hidx]
        exact ih i e hin he d
      · have hieq : i = n := by omega
        subst hieq
        have hge : ((List.range i).flatMap g).length ≤ i * P + e := by
          rw [hlen]; omega
        rw [List.getD_append_right _ _ _ _ hge, hlen]
        have : i * P + e - i * P = e := by omega
        rw [this]

theorem encode_lt : ∀ (s idx : List Nat), idx ∈ allIdx s →
    encode s idx < s.prod := by
  intro s
  induction s with
  | nil =>
      intro idx h
      simp [allIdx] at h
      subst h
      simp [encode]
  | cons n s ih =>
      intro idx h
      rw [mem_allIdx] at h
      cases h with
      | cons hi ht =>
          rename_i i is
          have h2 : encode s is < s.prod := ih is ((mem_allIdx s is).mpr ht)
          simp only [encode, List.prod_cons]
          calc i * s.prod + encode s is < i * s.prod + s.prod := by omega
            _ = (i + 1) * s.prod := by ring
            _ ≤ n * s.prod := Nat.mul_le_mul_right _ (by omega)

theorem allIdx_getD_encode : ∀ (s idx : List Nat), idx ∈ allIdx s →
    (allIdx s).getD (encode s idx) [] = idx := by
  intro s
  induction s with
  | nil =>
      intro idx h
      simp [allIdx] at h
      subst h
      simp [allIdx, encode]
  | cons n s ih =>
      intro idx h
      rw [mem_allIdx] at h
      cases h with
      | cons hi ht =>
          rename_i i is
          have htm : is ∈ allIdx s := (mem_allIdx s is).mpr ht
          have he : encode s is < s.prod := encode_lt s is htm
          have hlt : encode s is < (allIdx s).length := by
            rw [length_allIdx]; exact he
          simp only [allIdx, encode]
          rw [getD_flatMap_range_blocks (fun i => (allIdx s).map (fun t => i :: t))
            s.prod (fun i => by simp [length_allIdx]) n i (encode s is) hi he]
          rw [getD_map_lt _ _ _ hlt _ []]
          rw [ih is htm]

theorem allIdx_getD_divmod (n : Nat) (s : List Nat) (k : Nat)
    (hk : k < n * s.prod) :
    (allIdx (n :: s)).getD k [] =
      (k / s.prod) :: (allIdx s).getD (k % s.prod) [] := by
  have hP : 0 < s.prod := by
    rcases Nat.eq_zero_or_pos s.prod with h0 | h0
    · rw [h0, Nat.mul_zero] at hk; omega
    · exact h0
  have hk2 : k < s.prod * n := by rw [Nat.mul_comm]; exact hk
  have hdiv : k / s.prod < n := Nat.div_lt_of_lt_mul hk2
  have hmod : k % s.prod < s.prod := Nat.mod_lt _ hP
  have hlt : k % s.prod < (allIdx s).length := by
    rw [length_allIdx]; exact hmod
  have hsplit : k = (k / s.prod) * s.prod + k % s.prod := by
    conv_lhs => rw [← Nat.div_add_mod k s.prod]
    ring
  simp only [allIdx]
  conv_lhs => rw [hsplit]
  rw [getD_flatMap_range_blocks (fun i => (allIdx s).map (fun t => i :: t))
    s.prod (fun i => by simp [length_allIdx]) n _ _ hdiv hmod]
  rw [getD_map_lt _ _ _ hlt _ []]

theorem encode_allIdx_getD : ∀ (s : List Nat) (k : Nat), k < s.prod →
    encode s ((allIdx s).getD k []) = k := by
  intro s
  induction s with
  | nil =>
      intro k hk
      simp at hk
      subst hk
      simp [allIdx, encode]
  | cons n s ih =>
      intro k hk
      simp only [List.prod_cons] at hk
      have hP : 0 < s.prod := by
        rcases Nat.eq_zero_or_pos s.prod with h0 | h0
        · rw [h0, Nat.mul_zero] at hk; omega
        · exact h0
      rw [allIdx_getD_divmod n s k hk]
      simp only [encode]
      rw [ih (k % s.prod) (Nat.mod_lt _ hP)]
      rw [Nat.mul_comm (k / s.prod) s.prod]
      exact Nat.div_add_mod k s.prod

theorem get_ofFun [Inhabited α] (s : List Nat) (f : List Nat → α)
    (idx : List Nat) (h : idx ∈ allIdx s) :
    (ofFun s f).get idx = f idx := by
  simp only [get, ofFun]
  have he : encode s idx < (allIdx s).length := by
    rw [length_allIdx]; exact encode_lt s idx h
  rw [getD_map_lt _ _ _ he _ []]
  rw [allIdx_getD_encode s idx h]

theorem ofFun_get [Inhabited α] (a : NDArray α) (h : a.wf) :
    ofFun a.shape a.get = a := by
  obtain ⟨s, d⟩ := a
  simp only [ofFun, mk.injEq, true_and]
  simp only [wf] at h
  apply List.ext_getElem
  · simp [length_allIdx, h]
  · intro k h1 h2
    have h3 : k < (allIdx s).length := by simpa using h1
    have hk : k < s.prod := by rw [length_allIdx] at h3; exact h3
    rw [← getD_eq_getElem _ default k h1, ← getD_eq_getElem _ default k h2]
    rw [getD_map_lt _ _ _ h3 _ []]
    simp only [get]
    rw [encode_allIdx_getD s k hk]

theorem wf_ofFun (s : List Nat) (f : List Nat → α) : (ofFun s f).wf := by
  simp [ofFun, wf, length_allIdx]

theorem rank_ofFun (s : List Nat) (f : List Nat → α) :
    (ofFun s f).rank = s.length := rfl

theorem mem_allIdx_getD (s idx : List Nat) :
    idx ∈ allIdx s ↔ idx.length = s.length ∧
      ∀ k, k < s.length → idx.getD k 0 < s.getD k 0 := by
  rw [mem_allIdx, List.forall₂_iff_get]
  constructor
  · rintro ⟨hl, hg⟩
    refine ⟨hl, fun k hk => ?_⟩
    have hk1 : k < idx.length := by omega
    rw [getD_eq_getElem _ _ _ hk1, getD_eq_getElem _ _ _ hk]
    exact hg k hk1 hk
  · rintro ⟨hl, hg⟩
    refine ⟨hl, fun k hk1 hk2 => ?_⟩
    have := hg k hk2
    rw [getD_eq_getElem _ _ _ hk1, getD_eq_getElem _ _ _ hk2] at this
    exact this

end NDArray

theorem sameDim_refl (a : Dim) : sameDim a a = true := by
  simp [sameDim]

theorem sameDim_symm {a b : Dim} (h : sameDim a b = true) :
    sameDim b a = true := by
  simp only [sameDim, Bool.and_eq_true, beq_iff_eq] at *
  exact ⟨h.1.symm, h.2.symm⟩

theorem sameDim_trans {a b c : Dim} (h1 : sameDim a b = true)
    (h2 : sameDim b c = true) : sameDim a c = true := by
  simp only [sameDim, Bool.and_eq_true, beq_iff_eq] at *
  exact ⟨h1.1.trans h2.1, h1.2.trans h2.2⟩

theorem map_getD_range_self {α : Type} (l : List α) (d : α) :
    (List.range l.length).map (fun k => l.getD k d) = l := by
  apply List.ext_getElem
  · simp
  · intro k h1 h2
    simp only [List.getElem_map, List.getElem_range]
    exact NDArray.getD_eq_getElem l d k h2

theorem foldl_lastMatch_none (p : Dim → Bool) :
    ∀ (l : List Dim), (∀ d ∈ l, p d = false) →
      l.foldl (fun acc d => if p d then some d else acc) none = none := by
  have gen : ∀ (l : List Dim) (acc : Option Dim), (∀ d ∈ l, p d = false) →
      l.foldl (fun acc d => if p d then some d else acc) acc = acc := by
    intro l
    induction l with
    | nil => intro acc _; rfl
    | cons a l ih =>
        intro acc h
        simp only [List.foldl_cons]
        rw [h a (List.mem_cons_self a l)]
        simp only [Bool.false_eq_true, if_false]
        exact ih acc (fun d hd => h d (List.mem_cons_of_mem a hd))
  intro l h
  exact gen l none h

/-- C2: for all labeled arrays A and B, reshaping both to the dims union via
change_shape and combining elementwise yields exactly the result of the
public arithmetic operator A + B (same buffer and same dims): the operator's
internal alignment is the explicit align-then-combine composition. -/
theorem c2_align_then_combine (A B : HFArray Int) :
    alignThenCombineSpec A B = hfadd A B := by
  rfl

/-- C8 counterexample: assigning a two-dim collection to a rank-1 array
through the dims setter raises nothing and leaves the array with a
mismatched dimension collection, contrary to the claim that the setter
re-validates the rank invariant. -/
theorem c8_counterexample :
    ([exFreq, exRep2].length ≠ exA1.buf.rank) ∧
      ¬ ((setDims exA1 [exFreq, exRep2]).dims.length =
        (setDims exA1 [exFreq, exRep2]).buf.rank) := by
  constructor
  · decide
  · decide

/-- C8 amended: the dims setter replaces the collection without any
validation; the rank invariant holds on the result exactly when the new
collection already has the right length, and no error is ever raised. -/
theorem c8_setter_no_validation (A : HFArray Int) (d : List Dim) :
    setDims A d = ⟨A.buf, d⟩ ∧
      ((setDims A d).dims.length = (setDims A d).buf.rank ↔
        d.length = A.buf.rank) := by
  exact ⟨rfl, Iff.rfl⟩

/-- C10: the matrix-transpose property returns the array unchanged whenever
the dimension collection lacks a MatrixRow (DimMatrix_i) dimension or lacks
a MatrixColumn (DimMatrix_j) dimension. -/
theorem c10_t_without_matrix_pair (A : HFArray Int)
    (h : (∀ d ∈ A.dims, d.variant ≠ Variant.matI) ∨
      (∀ d ∈ A.dims, d.variant ≠ Variant.matJ)) :
    hft A = A := by
  rcases h with h | h
  · have hnone := foldl_lastMatch_none (fun d => d.variant == Variant.matI)
      A.dims (fun d hd => by simpa using h d hd)
    simp only [hft, hnone]
  · have hnone := foldl_lastMatch_none (fun d => d.variant == Variant.matJ)
      A.dims (fun d hd => by simpa using h d hd)
    rcases hI : A.dims.foldl (fun acc d =>
      if d.variant == Variant.matI then some d else acc) none with _ | d
    · simp only [hft, hnone, hI]
    · simp only [hft, hnone, hI]

/-- C10 witness: the matrix-transpose property is the identity on a concrete
array with sweep and repetition dims only. -/
theorem c10_witness : hft exC2 = exC2 :=
  c10_t_without_matrix_pair exC2 (Or.inl (by decide))

theorem unzip_filterMap_pair (Q : Dim → Bool) (g : Nat → Int) :
    ∀ (l : List (Nat × Dim)),
      (l.filterMap (fun p => if Q p.2 then some (p.2, g p.1) else none)).unzip =
        (l.filterMap (fun p => if Q p.2 then some p.2 else none),
          l.filterMap (fun p => if Q p.2 then some (g p.1) else none)) := by
  intro l
  induction l with
  | nil => rfl
  | cons a l ih =>
      rcases hq : Q a.2 with _ | _
      · simp only [List.filterMap_cons, hq, Bool.false_eq_true, if_false, ih]
      · simp only [List.filterMap_cons, hq, if_true, List.unzip_cons, ih]

theorem filterMap_zip_snd (Q : Dim → Bool) :
    ∀ (l : List Dim) (r : List Nat), r.length = l.length →
      ((r.zip l).filterMap (fun p => if Q p.2 then some p.2 else none) =
        l.filter Q) := by
  intro l
  induction l with
  | nil => intro r _; simp
  | cons a l ih =>
      intro r hr
      cases r with
      | nil => simp at hr
      | cons n r =>
          simp only [List.zip_cons_cons, List.filterMap_cons, List.filter_cons]
          rcases hq : Q a with _ | _
          · simp only [Bool.false_eq_true, if_false]
            exact ih r (by simpa using hr)
          · simp only [if_true]
            rw [ih r (by simpa using hr)]

theorem filterMap_enum_snd (Q : Dim → Bool) (l : List Dim) :
    l.enum.filterMap (fun p => if Q p.2 then some p.2 else none) =
      l.filter Q := by
  rw [List.enum_eq_zip_range]
  exact filterMap_zip_snd Q l (List.range l.length) (by simp)

/-- C6 counterexample: on an array with two repetition dims, single-axis
resolution of the Repetition variant tag raises the ambiguity error, but
multiple_axis_handler applied to the same one-element specifier returns both
matches with no error — the multi-axis resolver does not apply the same
rules. -/
theorem c6_counterexample :
    axis_handler exE2 (some (AxElem.tag Variant.rep)) =
      Except.error Err.indexError ∧
    multiple_axis_handler exE2 (AxSpec.single (AxElem.tag Variant.rep)) =
      Except.ok (some ([exRep2, exRepB], [0, 1])) := by
  constructor
  · rfl
  · rfl

/-- C6 amended: single-axis resolution of a variant tag succeeds iff exactly
one member matches (zero or several matches raise IndexError), while
multiple_axis_handler instead collects ALL members of that variant with
their positions, raising no error for zero or several matches. -/
theorem c6_variant_resolution (A : HFArray Int) (v : Variant) :
    ((A.dims.filter (fun d => d.variant == v)).length = 1 →
      axis_handler A (some (AxElem.tag v)) =
        Except.ok (some ((A.dims.filter (fun d => d.variant == v)).getD 0
          default))) ∧
    ((A.dims.filter (fun d => d.variant == v)).length ≠ 1 →
      axis_handler A (some (AxElem.tag v)) = Except.error Err.indexError) ∧
    (multiple_axis_handler A (AxSpec.single (AxElem.tag v)) =
      Except.ok (some (A.dims.filter (fun d => d.variant == v),
        A.dims.enum.filterMap (fun p =>
          if p.2.variant == v then some ((p.1 : Int)) else none)))) := by
  refine ⟨?_, ?_, ?_⟩
  · intro h1
    rcases hF : A.dims.filter (fun d => d.variant == v) with _ | ⟨d, _ | ⟨e, r⟩⟩
    · rw [hF] at h1; simp at h1
    · simp only [axis_handler, hF, List.getD]
      rfl
    · rw [hF] at h1; simp at h1
  · intro h1
    rcases hF : A.dims.filter (fun d => d.variant == v) with _ | ⟨d, _ | ⟨e, r⟩⟩
    · simp only [axis_handler, hF]
    · rw [hF] at h1; simp at h1
    · simp only [axis_handler, hF]
  · simp only [multiple_axis_handler, mahGo, resolveOne,
      unzip_filterMap_pair (fun d => d.variant == v) (fun n => (n : Int))
        A.dims.enum,
      filterMap_enum_snd (fun d => d.variant == v) A.dims]
    show Except.ok (some ((A.dims.filter (fun d => d.variant == v)) ++ [],
      (A.dims.enum.filterMap (fun p =>
        if p.2.variant == v then some ((p.1 : Int)) else none)) ++ [])) = _
    rw [List.append_nil, List.append_nil]

/-- C6 witness: the amended rules evaluated on the two-repetition array. -/
theorem c6_witness :
    axis_handler exE2 (some (AxElem.tag Variant.rep)) =
      Except.error Err.indexError :=
  (c6_variant_resolution exE2 Variant.rep).2.1 (by decide)

theorem filter_orderedInsert (p : Int) (a : Dim) :
    ∀ (l : List Dim),
      (List.orderedInsert prioLe a l).filter (fun d => d.sortprio == p) =
        if a.sortprio == p then
          a :: l.filter (fun d => d.sortprio == p)
        else l.filter (fun d => d.sortprio == p) := by
  intro l
  induction l with
  | nil =>
      rcases ha : a.sortprio == p with _ | _
      · simp [List.orderedInsert, List.filter, ha]
      · simp [List.orderedInsert, List.filter, ha]
  | cons b l ih =>
      simp only [List.orderedInsert]
      by_cases hr : prioLe a b
      · rw [if_pos hr, List.filter_cons]
      · rw [if_neg hr, List.filter_cons, ih]
        have hba : b.sortprio < a.sortprio := by
          simpa [prioLe] using hr
        rcases ha : a.sortprio == p with _ | _
        · simp only [Bool.false_eq_true, if_false, List.filter_cons]
        · have hap : a.sortprio = p := by simpa using ha
          have hb : (b.sortprio == p) = false := by
            rw [beq_eq_false_iff_ne]
            omega
          simp only [if_true, List.filter_cons, hb, Bool.false_eq_true,
            if_false]

theorem filter_insertionSort (p : Int) : ∀ (l : List Dim),
    (List.insertionSort prioLe l).filter (fun d => d.sortprio == p) =
      l.filter (fun d => d.sortprio == p) := by
  intro l
  induction l with
  | nil => rfl
  | cons a l ih =>
      simp only [List.insertionSort]
      rw [filter_orderedInsert, ih, List.filter_cons]

theorem pairwise_accum_inner :
    ∀ (ds : List Dim) (ni : List Dim),
      List.Pairwise (fun x y => sameDim x y = false) ni →
      List.Pairwise (fun x y => sameDim x y = false)
        (ds.foldl (fun ni2 d =>
          if dimsContains ni2 d then ni2 else ni2 ++ [d]) ni) := by
  intro ds
  induction ds with
  | nil => intro ni h; exact h
  | cons d ds ih =>
      intro ni h
      simp only [List.foldl_cons]
      by_cases hc : dimsContains ni d = true
      · rw [if_pos hc]
        exact ih ni h
      · rw [if_neg hc]
        apply ih
        rw [List.pairwise_append]
        refine ⟨h, List.pairwise_singleton _ _, ?_⟩
        intro x hx y hy
        simp only [List.mem_singleton] at hy
        subst hy
        rcases hs : sameDim x y with _ | _
        · rfl
        · exfalso
          apply hc
          simp only [dimsContains, List.any_eq_true]
          exact ⟨x, hx, hs⟩

theorem pairwise_accum_outer :
    ∀ (bs : List (HFArray Int)) (ni : List Dim),
      List.Pairwise (fun x y => sameDim x y = false) ni →
      List.Pairwise (fun x y => sameDim x y = false)
        (bs.foldl (fun ni b => b.dims.foldl (fun ni2 d =>
          if dimsContains ni2 d then ni2 else ni2 ++ [d]) ni) ni) := by
  intro bs
  induction bs with
  | nil => intro ni h; exact h
  | cons b bs ih =>
      intro ni h
      simp only [List.foldl_cons]
      exact ih _ (pairwise_accum_inner b.dims ni h)

/-- C3: dims_union accumulates the first operand's dims plus every later dim
not already present by identity (dimsAccum, the code's own accumulation, in
which the appended part stays free of identity duplicates), and the result is
that accumulation stably sorted by sort priority: it is sorted, it is a
permutation of the accumulation, and within every sort-priority class the
first-seen order is kept exactly. -/
theorem c3_dims_union_stable_sort (a : HFArray Int) (rest : List (HFArray Int)) :
    List.Sorted prioLe (dims_union (a :: rest)) ∧
    (dims_union (a :: rest)).Perm (dimsAccum (a :: rest)) ∧
    (∀ p : Int, (dims_union (a :: rest)).filter (fun d => d.sortprio == p) =
      (dimsAccum (a :: rest)).filter (fun d => d.sortprio == p)) ∧
    (List.Pairwise (fun x y => sameDim x y = false) a.dims →
      List.Pairwise (fun x y => sameDim x y = false)
        (dimsAccum (a :: rest))) := by
  refine ⟨?_, ?_, ?_, ?_⟩
  · exact List.sorted_insertionSort prioLe _
  · exact List.perm_insertionSort prioLe _
  · intro p
    exact filter_insertionSort p _
  · intro h
    simp only [dimsAccum]
    exact pairwise_accum_outer rest a.dims h

/-- C3 witness: the stable-sort characterization evaluated on two concrete
one-dimensional operands. -/
theorem c3_witness :
    List.Pairwise (fun x y => sameDim x y = false) (dimsAccum [exB1, exA1]) :=
  (c3_dims_union_stable_sort exB1 [exA1]).2.2.2 (by decide)

theorem hftranspose_eq_of_perm (A : HFArray Int) (p : List Nat)
    (hp : p.Perm (List.range A.ndim)) :
    hftranspose A p =
      ⟨A.buf.transposeA p, p.map (fun i => A.dims.getD i default)⟩ := by
  cases p with
  | nil =>
      have h0 : List.range A.ndim = [] := (hp.symm).eq_nil
      simp [hftranspose, h0]
  | cons a p => rfl

/-- C9: round-trip transposition: for every wellformed labeled array A and
every permutation p of its axes, transposing by p and then by the inverse
permutation restores the same buffer contents and the same dimension
collection, in the same order. -/
theorem c9_transpose_roundtrip (A : HFArray Int) (p : List Nat)
    (hwf : A.wf) (hp : p.Perm (List.range A.ndim)) :
    hftranspose (hftranspose A p)
      ((List.range A.ndim).map (fun k => p.indexOf k)) = A := by
  obtain ⟨hlen, hbwf⟩ := hwf
  have hshapelen : A.buf.shape.length = A.ndim := rfl
  have hplen : p.length = A.ndim := by
    have := hp.length_eq
    simpa using this
  have hpnd : p.Nodup := hp.nodup_iff.mpr (List.nodup_range A.ndim)
  have hpmem : ∀ k, k ∈ p ↔ k < A.ndim := by
    intro k
    rw [hp.mem_iff, List.mem_range]
  have hidxlt : ∀ k, k < A.ndim → p.indexOf k < p.length := by
    intro k hk
    exact List.indexOf_lt_length.mpr ((hpmem k).mpr hk)
  have hgetidx : ∀ k, k < A.ndim → p.getD (p.indexOf k) 0 = k := by
    intro k hk
    rw [NDArray.getD_eq_getElem p 0 _ (hidxlt k hk)]
    exact List.getElem_indexOf (hidxlt k hk)
  have hidxget : ∀ j, j < p.length → p.indexOf (p.getD j 0) = j := by
    intro j hj
    rw [NDArray.getD_eq_getElem p 0 j hj]
    exact List.indexOf_getElem hpnd j hj
  have hpgetlt : ∀ j, j < A.ndim → p.getD j 0 < A.ndim := by
    intro j hj
    have hj2 : j < p.length := by omega
    rw [NDArray.getD_eq_getElem p 0 j hj2]
    exact (hpmem _).mp (List.getElem_mem _)
  have hqlen : ((List.range A.ndim).map (fun k => p.indexOf k)).length =
      A.ndim := by simp
  have hqget : ∀ m, m < A.ndim →
      ((List.range A.ndim).map (fun k => p.indexOf k)).getD m 0 =
        p.indexOf m := by
    intro m hm
    rw [NDArray.getD_map_lt (fun k => p.indexOf k) (List.range A.ndim) m
      (by simpa using hm) 0 0]
    congr 1
    rw [NDArray.getD_eq_getElem _ 0 m (by simpa using hm)]
    exact List.getElem_range m _
  have hqnd : ((List.range A.ndim).map (fun k => p.indexOf k)).Nodup := by
    apply List.Nodup.map_on ?_ (List.nodup_range A.ndim)
    intro x hx y hy hxy
    have hx2 : x < A.ndim := List.mem_range.mp hx
    have hy2 : y < A.ndim := List.mem_range.mp hy
    have h1 := hgetidx x hx2
    rw [hxy] at h1
    rw [hgetidx y hy2] at h1
    exact h1.symm
  have hqmem : ∀ k, k ∈ (List.range A.ndim).map (fun k => p.indexOf k) ↔
      k < A.ndim := by
    intro k
    constructor
    · intro hk
      simp only [List.mem_map, List.mem_range] at hk
      obtain ⟨m, hm, rfl⟩ := hk
      have := hidxlt m hm
      omega
    · intro hk
      simp only [List.mem_map, List.mem_range]
      exact ⟨p.getD k 0, hpgetlt k hk, hidxget k (by omega)⟩
  have hqidx : ∀ k, k < A.ndim →
      ((List.range A.ndim).map (fun k => p.indexOf k)).indexOf k =
        p.getD k 0 := by
    intro k hk
    have h2 : p.getD k 0 <
        ((List.range A.ndim).map (fun k => p.indexOf k)).length := by
      rw [hqlen]
      exact hpgetlt k hk
    have h3 : ((List.range A.ndim).map (fun k => p.indexOf k)).indexOf
        (((List.range A.ndim).map (fun k => p.indexOf k)).getD
          (p.getD k 0) 0) = p.getD k 0 := by
      rw [NDArray.getD_eq_getElem _ 0 _ h2]
      exact List.indexOf_getElem hqnd _ h2
    rw [hqget _ (hpgetlt k hk), hidxget k (by omega)] at h3
    exact h3
  rw [hftranspose_eq_of_perm A p hp]
  have hT1rank : (HFArray.mk (A.buf.transposeA p)
      (p.map (fun i => A.dims.getD i default))).ndim = A.ndim := by
    simp [HFArray.ndim, NDArray.rank, NDArray.transposeA, NDArray.ofFun,
      hplen]
  have hqperm : ((List.range A.ndim).map (fun k => p.indexOf k)).Perm
      (List.range (HFArray.mk (A.buf.transposeA p)
        (p.map (fun i => A.dims.getD i default))).ndim) := by
    rw [hT1rank]
    apply (List.perm_ext_iff_of_nodup hqnd (List.nodup_range A.ndim)).mpr
    intro k
    rw [List.mem_range]
    exact hqmem k
  rw [hftranspose_eq_of_perm _ _ hqperm]
  have hs1shape : (A.buf.transposeA p).shape =
      p.map (fun i => A.buf.shape.getD i 0) := rfl
  have hs1len : (A.buf.transposeA p).shape.length = A.ndim := by
    rw [hs1shape]
    simpa using hplen
  have hdims : ((List.range A.ndim).map (fun k => p.indexOf k)).map
      (fun i => (p.map (fun i => A.dims.getD i default)).getD i default) =
        A.dims := by
    apply List.ext_getElem
    · simp [hplen, hlen]
      rfl
    · intro m h1 h2
      have hm : m < A.ndim := by
        rw [hlen] at h2
        exact h2
      rw [← NDArray.getD_eq_getElem _ default m h1,
        ← NDArray.getD_eq_getElem _ default m h2]
      rw [NDArray.getD_map_lt _ _ m (by rw [hqlen]; exact hm) default 0]
      rw [hqget m hm]
      rw [NDArray.getD_map_lt _ p (p.indexOf m) (hidxlt m hm) default 0]
      rw [hgetidx m hm]
  have hs2 : ((List.range A.ndim).map (fun k => p.indexOf k)).map
      (fun i => (A.buf.transposeA p).shape.getD i 0) = A.buf.shape := by
    apply List.ext_getElem
    · rw [List.length_map, hqlen, hshapelen]
    · intro m h1 h2
      have hm : m < A.ndim := by
        rw [hshapelen] at h2
        exact h2
      rw [← NDArray.getD_eq_getElem _ 0 m h1,
        ← NDArray.getD_eq_getElem _ 0 m h2]
      rw [NDArray.getD_map_lt _ _ m (by rw [hqlen]; exact hm) 0 0]
      rw [hqget m hm]
      rw [hs1shape,
        NDArray.getD_map_lt _ p (p.indexOf m) (hidxlt m hm) 0 0]
      rw [hgetidx m hm]
  have hbuf : (A.buf.transposeA p).transposeA
      ((List.range A.ndim).map (fun k => p.indexOf k)) = A.buf := by
    show NDArray.ofFun _ _ = A.buf
    rw [hs2]
    conv_rhs => rw [← NDArray.ofFun_get A.buf hbwf]
    unfold NDArray.ofFun
    refine congrArg _ ?_
    apply List.map_congr_left
    intro idx hidx
    obtain ⟨hidxlen, hidxlt2⟩ := (NDArray.mem_allIdx_getD _ _).mp hidx
    have hT1r : (A.buf.transposeA p).rank = A.ndim := by
      simpa [NDArray.rank] using hs1len
    rw [hT1r]
    have hjdx : (List.range A.ndim).map (fun k => idx.getD
        (((List.range A.ndim).map (fun k => p.indexOf k)).indexOf k) 0) =
          (List.range A.ndim).map (fun k => idx.getD (p.getD k 0) 0) := by
      apply List.map_congr_left
      intro k hk
      rw [hqidx k (List.mem_range.mp hk)]
    rw [hjdx]
    have hjmem : (List.range A.ndim).map (fun k => idx.getD (p.getD k 0) 0) ∈
        NDArray.allIdx (A.buf.transposeA p).shape := by
      rw [NDArray.mem_allIdx_getD]
      constructor
      · simp [hs1len]
      · intro k hk
        have hk2 : k < A.ndim := by
          rw [hs1len] at hk
          exact hk
        rw [NDArray.getD_map_lt _ _ k (by simpa using hk2) 0 0]
        have hrg : (List.range A.ndim).getD k 0 = k := by
          rw [NDArray.getD_eq_getElem _ 0 k (by simpa using hk2)]
          exact List.getElem_range k _
        rw [hrg]
        rw [hs1shape, NDArray.getD_map_lt _ p k (by omega) 0 0]
        exact hidxlt2 _ (hpgetlt k hk2)
    rw [hs1shape] at hjmem
    show (A.buf.transposeA p).get _ = A.buf.get idx
    unfold NDArray.transposeA
    rw [NDArray.get_ofFun _ _ _ hjmem]
    have hodx : (List.range A.buf.rank).map (fun k =>
        ((List.range A.ndim).map (fun k2 => idx.getD (p.getD k2 0) 0)).getD
          (p.indexOf k) 0) = idx := by
      apply List.ext_getElem
      · simpa [NDArray.rank] using hidxlen.symm
      · intro k h1 h2
        have hk : k < A.ndim := by simpa using h1
        rw [← NDArray.getD_eq_getElem _ 0 k h1,
          ← NDArray.getD_eq_getElem _ 0 k h2]
        rw [NDArray.getD_map_lt _ _ k (by simpa using hk) 0 0]
        have hrg : (List.range A.buf.rank).getD k 0 = k := by
          rw [NDArray.getD_eq_getElem _ 0 k (by simpa using hk)]
          exact List.getElem_range k _
        rw [hrg]
        have hil : p.indexOf k < A.ndim := by
          have := hidxlt k hk
          omega
        rw [NDArray.getD_map_lt _ _ (p.indexOf k) (by simpa using hil) 0 0]
        have hrg2 : (List.range A.ndim).getD (p.indexOf k) 0 = p.indexOf k := by
          rw [NDArray.getD_eq_getElem _ 0 _ (by simpa using hil)]
          exact List.getElem_range _ _
        rw [hrg2, hgetidx k hk]
    rw [hodx]
  rw [hbuf, hdims]

/-- C9 witness: roundtrip on a concrete 2x3 array with the swap
permutation. -/
theorem c9_witness :
    hftranspose (hftranspose exC2 [1, 0])
      ((List.range exC2.ndim).map (fun k => [1, 0].indexOf k)) = exC2 :=
  c9_transpose_roundtrip exC2 [1, 0]
    ⟨by decide, show exC2.buf.data.length = exC2.buf.shape.prod by decide⟩
    (by decide)

theorem except_bind_ok {α β : Type} (a : α) (f : α → Except Err β) :
    (Except.ok a >>= f) = f a := rfl

theorem except_bind_error {α β : Type} (e : Err) (f : α → Except Err β) :
    ((Except.error e : Except Err α) >>= f) = Except.error e := rfl

theorem except_ok_of_bind {α β : Type} {x : Except Err α}
    {f : α → Except Err β} {b : β} (h : (x >>= f) = Except.ok b) :
    ∃ a, x = Except.ok a ∧ f a = Except.ok b := by
  cases x with
  | ok a => exact ⟨a, rfl, h⟩
  | error e => exact Except.noConfusion h

theorem hfnew_ok_inv {buf : NDArray Int} {dims : Option (List Dim)}
    {B : HFArray Int} (h : hfnew buf dims = Except.ok B) :
    B.dims.length = B.buf.rank := by
  cases dims with
  | some d =>
      simp only [hfnew] at h
      by_cases hc : d.length = buf.rank
      · rw [if_pos hc] at h
        cases h
        exact hc
      · rw [if_neg hc] at h
        exact Except.noConfusion h
  | none =>
      simp only [hfnew] at h
      by_cases h0 : buf.rank = 0
      · rw [if_pos h0] at h
        cases h
        simpa using h0.symm
      · rw [if_neg h0] at h
        by_cases h2 : buf.rank ≤ 2
        · rw [if_pos h2] at h
          by_cases hc : ((default_dim.zip buf.shape).map (fun p =>
              { name := p.1.1, variant := p.1.2,
                data := (List.range p.2).map Int.ofNat : Dim })).length =
                  buf.rank
          · rw [if_pos hc] at h
            cases h
            exact hc
          · rw [if_neg hc] at h
            exact Except.noConfusion h
        · rw [if_neg h2] at h
          exact Except.noConfusion h

theorem squeezeHF_ok_inv {A B : HFArray Int} {ax : AxSpec}
    (h : squeezeHF A ax = Except.ok B) : B.dims.length = B.buf.rank := by
  unfold squeezeHF at h
  obtain ⟨v, hm, h2⟩ := except_ok_of_bind h
  rcases v with _ | ⟨ds, idxs⟩
  · exact hfnew_ok_inv h2
  · obtain ⟨b, hsq, h3⟩ := except_ok_of_bind h2
    exact hfnew_ok_inv h3

theorem sumHF_ok_inv {A B : HFArray Int} {ax : AxSpec} {kd de : Bool}
    (hA : A.dims.length = A.buf.rank)
    (h : sumHF A ax kd de = Except.ok B) : B.dims.length = B.buf.rank := by
  unfold sumHF at h
  cases hm : multiple_axis_handler A ax with
  | error e =>
      rw [hm] at h
      cases de with
      | true => exact Except.noConfusion h
      | false =>
          cases h
          exact hA
  | ok v =>
      rw [hm] at h
      rcases v with _ | ⟨ds, idxs⟩
      · obtain ⟨res, hn, h2⟩ := except_ok_of_bind h
        cases kd with
        | true =>
            cases h2
            exact hfnew_ok_inv hn
        | false => exact squeezeHF_ok_inv h2
      · obtain ⟨r, hs, h2⟩ := except_ok_of_bind h
        obtain ⟨res, hn, h3⟩ := except_ok_of_bind h2
        cases kd with
        | true =>
            cases h3
            exact hfnew_ok_inv hn
        | false => exact squeezeHF_ok_inv h3

theorem add_dim_ok_inv {A B : HFArray Int} {d : Option Dim} {ax : Nat}
    (hA : A.dims.length = A.buf.rank)
    (h : add_dim A d ax = Except.ok B) : B.dims.length = B.buf.rank := by
  cases d with
  | none =>
      simp only [add_dim] at h
      cases h
      exact hA
  | some d =>
      simp only [add_dim] at h
      by_cases hc : dimsContains A.dims d = true
      · rw [if_pos hc] at h
        cases h
        exact hA
      · rw [if_neg hc] at h
        exact hfnew_ok_inv h

theorem getitem_bool_ok_inv {A B : HFArray Int} {m : HFArray Bool}
    (h : getitem_bool A m = Except.ok B) : B.dims.length = B.buf.rank := by
  unfold getitem_bool at h
  exact hfnew_ok_inv h

theorem hftranspose_rank_inv (A : HFArray Int) (order : List Nat) :
    (hftranspose A order).dims.length = (hftranspose A order).buf.rank := by
  simp [hftranspose, NDArray.transposeA, NDArray.ofFun, NDArray.rank]

/-- C1: the rank invariant len(dims) = buffer rank holds after every modelled
operation of the labeled-array core: validating construction (which raises
the shape/dims mismatch error exactly when the invariant would fail, and
whose successful results always satisfy it), transpose, reorder_dimensions,
squeeze, boolean indexing, reductions (both keepdims settings, assuming the
input satisfied the invariant, since an absent dimension with dimerror
false returns the input unchanged), arithmetic through the aligned operator,
and add_dim. -/
theorem c1_rank_invariant :
    (∀ (buf : NDArray Int) (dims : Option (List Dim)) (B : HFArray Int),
      hfnew buf dims = Except.ok B → B.dims.length = B.buf.rank) ∧
    (∀ (buf : NDArray Int) (dims : List Dim), dims.length ≠ buf.rank →
      hfnew buf (some dims) = Except.error Err.shapeDimsMismatch) ∧
    (∀ (A : HFArray Int) (order : List Nat),
      (hftranspose A order).dims.length = (hftranspose A order).buf.rank) ∧
    (∀ (A : HFArray Int) (order : List Dim),
      (reorder_dimensions A order).dims.length =
        (reorder_dimensions A order).buf.rank) ∧
    (∀ (A B : HFArray Int) (ax : AxSpec),
      squeezeHF A ax = Except.ok B → B.dims.length = B.buf.rank) ∧
    (∀ (A B : HFArray Int) (ax : AxSpec) (kd de : Bool),
      A.dims.length = A.buf.rank → sumHF A ax kd de = Except.ok B →
        B.dims.length = B.buf.rank) ∧
    (∀ (A B : HFArray Int),
      (hfadd A B).dims.length = (hfadd A B).buf.rank) ∧
    (∀ (A B : HFArray Int) (d : Option Dim) (ax : Nat),
      A.dims.length = A.buf.rank → add_dim A d ax = Except.ok B →
        B.dims.length = B.buf.rank) ∧
    (∀ (A B : HFArray Int) (m : HFArray Bool),
      getitem_bool A m = Except.ok B → B.dims.length = B.buf.rank) := by
  refine ⟨?_, ?_, ?_, ?_, ?_, ?_, ?_, ?_, ?_⟩
  · intro buf dims B h
    exact hfnew_ok_inv h
  · intro buf dims h
    simp only [hfnew]
    rw [if_neg h]
  · intro A order
    exact hftranspose_rank_inv A order
  · intro A order
    exact hftranspose_rank_inv A _
  · intro A B ax h
    exact squeezeHF_ok_inv h
  · intro A B ax kd de hA h
    exact sumHF_ok_inv hA h
  · intro A B
    simp [hfadd, make_same_dims, make_same_dims_list, change_shape,
      NDArray.bcastZip, NDArray.ofFun, NDArray.rank]
  · intro A B d ax hA h
    exact add_dim_ok_inv hA h
  · intro A B m h
    exact getitem_bool_ok_inv h

/-- C1 witness: the invariant on the concrete result of a reduction over the
repetition dimension of a 3x2 array. -/
theorem c1_witness :
    (HFArray.mk (NDArray.mk [3] [3, 7, 11]) [exFreq3]).dims.length =
      (HFArray.mk (NDArray.mk [3] [3, 7, 11]) [exFreq3]).buf.rank :=
  c1_rank_invariant.2.2.2.2.2.1 exC2 ⟨⟨[3], [3, 7, 11]⟩, [exFreq3]⟩
    (AxSpec.single (AxElem.name "rep")) false true (by decide) (by rfl)

theorem filterMap_if_eq_map_filter {α β : Type} (P : α → Bool) (f : α → β) :
    ∀ (l : List α), l.filterMap (fun a => if P a then none else some (f a)) =
      (l.filter (fun a => ! P a)).map f := by
  intro l
  induction l with
  | nil => rfl
  | cons a l ih =>
      rcases hp : P a with _ | _
      · simp [List.filterMap_cons, hp, List.filter_cons, ih]
      · simp [List.filterMap_cons, hp, List.filter_cons, ih]

theorem length_filter_zip_fst {α : Type} (Q : Nat → Bool) :
    ∀ (r : List Nat) (l : List α), r.length = l.length →
      ((r.zip l).filter (fun p => Q p.1)).length = (r.filter Q).length := by
  intro r
  induction r with
  | nil => intro l _; simp
  | cons n r ih =>
      intro l hl
      cases l with
      | nil => simp at hl
      | cons a l =>
          simp only [List.zip_cons_cons, List.filter_cons]
          rcases hq : Q n with _ | _
          · simp only [Bool.false_eq_true, if_false]
            exact ih l (by simpa using hl)
          · simp only [if_true, List.length_cons]
            rw [ih l (by simpa using hl)]

theorem length_filterMap_enum_idx {α : Type} (P : Nat → Bool) (l : List α) :
    (l.enum.filterMap (fun p => if P p.1 then none else some p.2)).length =
      ((List.range l.length).filter (fun k => ! P k)).length := by
  rw [filterMap_if_eq_map_filter (fun p => P p.1) (fun p => p.2) l.enum,
    List.length_map, List.enum_eq_zip_range]
  exact length_filter_zip_fst (fun k => ! P k) (List.range l.length) l
    (by simp)

theorem getD_enum_map {α β : Type} [Inhabited α] (f : Nat × α → β)
    (l : List α) (k : Nat) (hk : k < l.length) (d : β) :
    (l.enum.map f).getD k d = f (k, l.getD k default) := by
  have hk2 : k < l.enum.length := by simpa using hk
  rw [NDArray.getD_map_lt f l.enum k hk2 d (0, default)]
  congr 1
  rw [NDArray.getD_eq_getElem _ _ k hk2, List.getElem_enum]
  rw [NDArray.getD_eq_getElem _ _ k hk]

theorem rank_npSumKeepNorm (a : NDArray Int) (axes : List Nat) :
    (npSumKeepNorm a axes).rank = a.rank := by
  simp [npSumKeepNorm, NDArray.ofFun, NDArray.rank]

theorem mapM_normAxis_ok (r : Nat) :
    ∀ (l : List Int), (∀ i ∈ l, 0 ≤ i ∧ i.toNat < r) →
      l.mapM (normAxis r) = Except.ok (l.map Int.toNat) := by
  intro l
  induction l with
  | nil => intro _; rfl
  | cons i l ih =>
      intro h
      obtain ⟨h1, h2⟩ := h i (List.mem_cons_self i l)
      have hnorm : normAxis r i = Except.ok i.toNat := by
        unfold normAxis
        rw [if_pos ⟨h1, by omega⟩]
      rw [List.mapM_cons, hnorm, except_bind_ok,
        ih (fun j hj => h j (List.mem_cons_of_mem i hj)), except_bind_ok]
      rfl

theorem matching_index_lt {l : List Dim} {d : Dim} {j : Nat}
    (h : matching_index l d = some j) : j < l.length := by
  unfold matching_index at h
  exact (List.findIdx?_eq_some_iff_findIdx_eq.mp h).1

theorem resolveOne_idx_range {A : HFArray Int} {e : AxElem}
    {pr : List Dim × List Int} (h : resolveOne A e = Except.ok pr) :
    ∀ i ∈ pr.2, -(A.dims.length : Int) ≤ i ∧ i < A.dims.length := by
  cases e with
  | pos i =>
      simp only [resolveOne] at h
      obtain ⟨d, hget, h2⟩ := except_ok_of_bind h
      cases h2
      intro x hx
      simp only [List.mem_singleton] at hx
      subst hx
      simp only [pyGetDim] at hget
      by_cases h1 : 0 ≤ x ∧ x < (A.dims.length : Int)
      · exact ⟨by omega, h1.2⟩
      · rw [if_neg h1] at hget
        by_cases h2b : -(A.dims.length : Int) ≤ x ∧ x < 0
        · exact ⟨h2b.1, by omega⟩
        · rw [if_neg h2b] at hget
          exact Except.noConfusion hget
  | name s =>
      simp only [resolveOne] at h
      obtain ⟨j0, hidx, h2⟩ := except_ok_of_bind h
      by_cases hc : dimsContains A.dims (A.dims.getD j0 default) = true
      · rw [if_pos hc] at h2
        cases hmi : matching_index A.dims (A.dims.getD j0 default) with
        | none =>
            rw [hmi] at h2
            exact Except.noConfusion h2
        | some j =>
            rw [hmi] at h2
            cases h2
            intro x hx
            simp only [List.mem_singleton] at hx
            subst hx
            have := matching_index_lt hmi
            constructor
            · omega
            · exact_mod_cast this
      · rw [if_neg hc] at h2
        exact Except.noConfusion h2
  | tag v =>
      simp only [resolveOne] at h
      cases h
      intro x hx
      rw [unzip_filterMap_pair (fun d => d.variant == v) (fun n => (n : Int))
        A.dims.enum] at hx
      simp only [List.mem_filterMap] at hx
      obtain ⟨p, hp, hx2⟩ := hx
      rcases hq : p.2.variant == v with _ | _
      · rw [hq] at hx2
        exact Option.noConfusion hx2
      · rw [hq] at hx2
        cases hx2
        rw [List.enum_eq_zip_range] at hp
        have h1 : p.1 ∈ List.range A.dims.length := by
          have := List.of_mem_zip hp
          simpa using this.1
        have h2 : p.1 < A.dims.length := List.mem_range.mp h1
        constructor
        · omega
        · exact_mod_cast h2
  | inst d =>
      simp only [resolveOne] at h
      by_cases hc : dimsContains A.dims d = true
      · rw [if_pos hc] at h
        cases hmi : matching_index A.dims d with
        | none =>
            rw [hmi] at h
            exact Except.noConfusion h
        | some j =>
            rw [hmi] at h
            cases h
            intro x hx
            simp only [List.mem_singleton] at hx
            subst hx
            have := matching_index_lt hmi
            constructor
            · omega
            · exact_mod_cast this
      · rw [if_neg hc] at h
        exact Except.noConfusion h

theorem mahGo_idx_range {A : HFArray Int} :
    ∀ {l : List AxElem} {pr : List Dim × List Int},
      mahGo A l = Except.ok pr →
        ∀ i ∈ pr.2, -(A.dims.length : Int) ≤ i ∧ i < A.dims.length := by
  intro l
  induction l with
  | nil =>
      intro pr h i hi
      cases h
      simp at hi
  | cons e rest ih =>
      intro pr h i hi
      simp only [mahGo] at h
      obtain ⟨p, hp, h2⟩ := except_ok_of_bind h
      obtain ⟨q, hq, h3⟩ := except_ok_of_bind h2
      cases h3
      rcases List.mem_append.mp hi with hi2 | hi2
      · exact resolveOne_idx_range hp i hi2
      · exact ih hq i hi2

theorem mah_some_mahGo {A : HFArray Int} {spec : AxSpec} {ds : List Dim}
    {idxs : List Int}
    (h : multiple_axis_handler A spec = Except.ok (some (ds, idxs))) :
    (spec = AxSpec.noneAx → False) ∧
    (∀ e, spec = AxSpec.single e → mahGo A [e] = Except.ok (ds, idxs)) ∧
    (∀ l, spec = AxSpec.multi l → mahGo A l = Except.ok (ds, idxs)) := by
  refine ⟨?_, ?_, ?_⟩
  · intro he
    subst he
    simp [multiple_axis_handler] at h
  · intro e he
    subst he
    simp only [multiple_axis_handler] at h
    obtain ⟨pr, hg, h2⟩ := except_ok_of_bind h
    simp only [Except.ok.injEq, Option.some.injEq] at h2
    subst h2
    exact hg
  · intro l he
    subst he
    simp only [multiple_axis_handler] at h
    obtain ⟨pr, hg, h2⟩ := except_ok_of_bind h
    simp only [Except.ok.injEq, Option.some.injEq] at h2
    subst h2
    exact hg

theorem mah_idx_range {A : HFArray Int} {spec : AxSpec} {ds : List Dim}
    {idxs : List Int}
    (h : multiple_axis_handler A spec = Except.ok (some (ds, idxs))) :
    ∀ i ∈ idxs, -(A.dims.length : Int) ≤ i ∧ i < A.dims.length := by
  cases spec with
  | noneAx => exact absurd rfl (mah_some_mahGo h).1
  | single e => exact mahGo_idx_range ((mah_some_mahGo h).2.1 e rfl)
  | multi l => exact mahGo_idx_range ((mah_some_mahGo h).2.2 l rfl)

theorem mahGo_pos_ok (B : HFArray Int) :
    ∀ (l : List Int),
      (∀ i ∈ l, -(B.dims.length : Int) ≤ i ∧ i < B.dims.length) →
        ∃ ds2, mahGo B (l.map AxElem.pos) = Except.ok (ds2, l) := by
  intro l
  induction l with
  | nil => exact fun _ => ⟨[], rfl⟩
  | cons i l ih =>
      intro h
      obtain ⟨h1, h2⟩ := h i (List.mem_cons_self i l)
      obtain ⟨ds2, hgo⟩ := ih (fun j hj => h j (List.mem_cons_of_mem i hj))
      have hpg : ∃ d, pyGetDim B.dims i = Except.ok d := by
        simp only [pyGetDim]
        by_cases hp : 0 ≤ i ∧ i < (B.dims.length : Int)
        · rw [if_pos hp]
          exact ⟨_, rfl⟩
        · rw [if_neg hp, if_pos ⟨h1, by omega⟩]
          exact ⟨_, rfl⟩
      obtain ⟨d, hd⟩ := hpg
      refine ⟨d :: ds2, ?_⟩
      simp only [List.map_cons, mahGo, resolveOne, hd, except_bind_ok, hgo]
      rfl

theorem sumHF_some_eq (A : HFArray Int) (spec : AxSpec) (ds : List Dim)
    (idxs : List Int) (kd de : Bool)
    (hm : multiple_axis_handler A spec = Except.ok (some (ds, idxs))) :
    sumHF A spec kd de = (do
      let r ← npSumInt A.buf idxs
      let res ← hfnew r (some A.dims)
      if kd then Except.ok res
      else squeezeHF res (AxSpec.multi (idxs.map AxElem.pos))) := by
  unfold sumHF
  rw [hm]

theorem squeezeHF_some_eq (B : HFArray Int) (ax : AxSpec) (ds2 : List Dim)
    (idxs2 : List Int)
    (hm : multiple_axis_handler B ax = Except.ok (some (ds2, idxs2))) :
    squeezeHF B ax = (do
      let b ← npSqueezeAxes B.buf idxs2
      hfnew b (some (B.dims.enum.filterMap (fun p =>
        if idxs2.contains ((p.1 : Int)) then none else some p.2)))) := by
  unfold squeezeHF
  rw [hm, except_bind_ok]

theorem length_filter_bnot {α : Type} (P : α → Bool) :
    ∀ (l : List α),
      (l.filter (fun a => ! P a)).length + (l.filter P).length =
        l.length := by
  intro l
  induction l with
  | nil => rfl
  | cons a l ih =>
      rcases hp : P a with _ | _
      · simp only [List.filter_cons, hp, Bool.not_false, if_true,
          Bool.false_eq_true, if_false, List.length_cons]
        omega
      · simp only [List.filter_cons, hp, Bool.not_true, Bool.false_eq_true,
          if_false, if_true, List.length_cons]
        omega

/-- C5 counterexample: on a 3x2 array the integer specifier -1 resolves (the
resolver returns the repetition dim at position -1), yet sum with that axis
raises the shape/dims mismatch error instead of removing one axis, because
squeeze's position filter never matches a negative recorded position. -/
theorem c5_counterexample :
    multiple_axis_handler exC2 (AxSpec.single (AxElem.pos (-1))) =
      Except.ok (some ([exRep2], [-1])) ∧
    sumHF exC2 (AxSpec.single (AxElem.pos (-1))) false true =
      Except.error Err.shapeDimsMismatch := by
  constructor
  · rfl
  · rfl

/-- C5 amended: for every labeled array satisfying the rank invariant and
every axis specifier that resolves to positions idxs that are all
nonnegative and distinct, sum removes exactly the resolved axes: with
keepdims the dims are unchanged, without keepdims the result keeps exactly
the dim positions the resolver did not match, and the new dim count is
len(dims) - count_resolved; a negative resolved position instead raises the
shape/dims mismatch error (see the counterexample). -/
theorem c5_sum_removes_resolved_axes (A : HFArray Int) (spec : AxSpec)
    (ds : List Dim) (idxs : List Int) (de : Bool)
    (hlen : A.dims.length = A.buf.rank)
    (hm : multiple_axis_handler A spec = Except.ok (some (ds, idxs)))
    (hnn : ∀ i ∈ idxs, 0 ≤ i)
    (hnd : idxs.Nodup) :
    (sumHF A spec true de =
      Except.ok ⟨npSumKeepNorm A.buf (idxs.map Int.toNat), A.dims⟩) ∧
    (sumHF A spec false de = Except.ok
      ⟨⟨(npSumKeepNorm A.buf (idxs.map Int.toNat)).shape.enum.filterMap
          (fun p => if (idxs.map Int.toNat).contains p.1 then none
            else some p.2),
        (npSumKeepNorm A.buf (idxs.map Int.toNat)).data⟩,
       A.dims.enum.filterMap (fun p =>
         if idxs.contains ((p.1 : Int)) then none else some p.2)⟩) ∧
    ((A.dims.enum.filterMap (fun p =>
        if idxs.contains ((p.1 : Int)) then none else some p.2)).length =
      A.dims.length - idxs.length) := by
  have hrange := mah_idx_range hm
  have hrange2 : ∀ i ∈ idxs, 0 ≤ i ∧ i.toNat < A.buf.rank := by
    intro i hi
    obtain ⟨hlow, hhigh⟩ := hrange i hi
    refine ⟨hnn i hi, ?_⟩
    rw [← hlen]
    omega
  have hmapm := mapM_normAxis_ok A.buf.rank idxs hrange2
  have hnodupn : (idxs.map Int.toNat).Nodup := by
    apply List.Nodup.map_on ?_ hnd
    intro x hx y hy hxy
    have hx0 := hnn x hx
    have hy0 := hnn y hy
    omega
  have hsum : npSumInt A.buf idxs =
      Except.ok (npSumKeepNorm A.buf (idxs.map Int.toNat)) := by
    unfold npSumInt
    rw [hmapm, except_bind_ok, if_pos hnodupn]
  have hr_rank : (npSumKeepNorm A.buf (idxs.map Int.toNat)).rank =
      A.buf.rank := rank_npSumKeepNorm _ _
  have hnew : hfnew (npSumKeepNorm A.buf (idxs.map Int.toNat)) (some A.dims) =
      Except.ok ⟨npSumKeepNorm A.buf (idxs.map Int.toNat), A.dims⟩ := by
    simp only [hfnew]
    rw [if_pos (by rw [hr_rank]; exact hlen)]
  have hmemnorm : ∀ k : Nat, k ∈ idxs.map Int.toNat ↔ (k : Int) ∈ idxs := by
    intro k
    constructor
    · intro hk
      obtain ⟨i, hi, rfl⟩ := List.mem_map.mp hk
      have := hnn i hi
      have : ((i.toNat : Int)) = i := Int.toNat_of_nonneg this
      rw [this]
      exact hi
    · intro hk
      exact List.mem_map.mpr ⟨(k : Int), hk, by simp⟩
  have hpred : ∀ k : Nat,
      (idxs.map Int.toNat).contains k = idxs.contains ((k : Int)) := by
    intro k
    rcases h1 : idxs.contains ((k : Int)) with _ | _
    · rcases h2 : (idxs.map Int.toNat).contains k with _ | _
      · rfl
      · exfalso
        have h2b := (hmemnorm k).mp (List.elem_iff.mp h2)
        have h3 : idxs.contains ((k : Int)) = true := List.elem_iff.mpr h2b
        rw [h1] at h3
        exact Bool.noConfusion h3
    · exact List.elem_iff.mpr ((hmemnorm k).mpr (List.elem_iff.mp h1))
  have hshape : (npSumKeepNorm A.buf (idxs.map Int.toNat)).shape =
      A.buf.shape.enum.map (fun p =>
        if (idxs.map Int.toNat).contains p.1 then 1 else p.2) := rfl
  have hshapelen : (npSumKeepNorm A.buf (idxs.map Int.toNat)).shape.length =
      A.buf.rank := hr_rank
  have hsqz : npSqueezeAxes (npSumKeepNorm A.buf (idxs.map Int.toNat)) idxs =
      Except.ok
        ⟨(npSumKeepNorm A.buf (idxs.map Int.toNat)).shape.enum.filterMap
            (fun p => if (idxs.map Int.toNat).contains p.1 then none
              else some p.2),
          (npSumKeepNorm A.buf (idxs.map Int.toNat)).data⟩ := by
    unfold npSqueezeAxes
    rw [hr_rank, hmapm, except_bind_ok, if_pos hnodupn]
    rw [if_pos ?hall]
    case hall =>
      rw [List.all_eq_true]
      intro k hk
      have hk2 : k ∈ idxs.map Int.toNat := hk
      have hklt : k < A.buf.shape.length := by
        obtain ⟨i, hi, rfl⟩ := List.mem_map.mp hk2
        exact (hrange2 i hi).2
      rw [hshape, getD_enum_map _ _ k hklt 0]
      rw [if_pos (by
        rw [List.elem_iff]
        exact hk2)]
      rfl
  have hnewinfo_len :
      (A.dims.enum.filterMap (fun p =>
        if idxs.contains ((p.1 : Int)) then none else some p.2)).length =
      ((List.range A.dims.length).filter
        (fun (k : Nat) => ! idxs.contains ((k : Int)))).length :=
    length_filterMap_enum_idx (fun (k : Nat) => idxs.contains ((k : Int)))
      A.dims
  have hb_len :
      ((npSumKeepNorm A.buf (idxs.map Int.toNat)).shape.enum.filterMap
        (fun p => if (idxs.map Int.toNat).contains p.1 then none
          else some p.2)).length =
      ((List.range A.buf.rank).filter
        (fun k => ! (idxs.map Int.toNat).contains k)).length := by
    have := length_filterMap_enum_idx
      (fun k => (idxs.map Int.toNat).contains k)
      (npSumKeepNorm A.buf (idxs.map Int.toNat)).shape
    rw [hshapelen] at this
    exact this
  have hfilters_eq :
      ((List.range A.dims.length).filter
        (fun (k : Nat) => ! idxs.contains ((k : Int)))).length =
      ((List.range A.buf.rank).filter
        (fun k => ! (idxs.map Int.toNat).contains k)).length := by
    rw [hlen]
    congr 1
    apply List.filter_congr
    intro k _
    rw [hpred k]
  have hnewok : hfnew
      (⟨(npSumKeepNorm A.buf (idxs.map Int.toNat)).shape.enum.filterMap
          (fun p => if (idxs.map Int.toNat).contains p.1 then none
            else some p.2),
        (npSumKeepNorm A.buf (idxs.map Int.toNat)).data⟩ : NDArray Int)
      (some (A.dims.enum.filterMap (fun p =>
        if idxs.contains ((p.1 : Int)) then none else some p.2))) =
      Except.ok
        ⟨⟨(npSumKeepNorm A.buf (idxs.map Int.toNat)).shape.enum.filterMap
            (fun p => if (idxs.map Int.toNat).contains p.1 then none
              else some p.2),
          (npSumKeepNorm A.buf (idxs.map Int.toNat)).data⟩,
         A.dims.enum.filterMap (fun p =>
           if idxs.contains ((p.1 : Int)) then none else some p.2)⟩ := by
    simp only [hfnew]
    rw [if_pos ?hlen2]
    case hlen2 =>
      show (A.dims.enum.filterMap (fun p =>
        if idxs.contains ((p.1 : Int)) then none else some p.2)).length =
          ((npSumKeepNorm A.buf (idxs.map Int.toNat)).shape.enum.filterMap
            (fun p => if (idxs.map Int.toNat).contains p.1 then none
              else some p.2)).length
      rw [hnewinfo_len, hfilters_eq, ← hb_len]
  refine ⟨?_, ?_, ?_⟩
  · rw [sumHF_some_eq A spec ds idxs true de hm, hsum, except_bind_ok, hnew,
      except_bind_ok]
    rfl
  · rw [sumHF_some_eq A spec ds idxs false de hm, hsum, except_bind_ok, hnew,
      except_bind_ok]
    obtain ⟨ds2, hgo⟩ := mahGo_pos_ok
      ⟨npSumKeepNorm A.buf (idxs.map Int.toNat), A.dims⟩ idxs
      (fun i hi => hrange i hi)
    have hmres : multiple_axis_handler
        (HFArray.mk (npSumKeepNorm A.buf (idxs.map Int.toNat)) A.dims)
        (AxSpec.multi (idxs.map AxElem.pos)) =
          Except.ok (some (ds2, idxs)) := by
      simp only [multiple_axis_handler]
      rw [hgo, except_bind_ok]
    simp only [Bool.false_eq_true, if_false]
    rw [squeezeHF_some_eq _ _ ds2 idxs hmres]
    rw [show (HFArray.mk (npSumKeepNorm A.buf (idxs.map Int.toNat))
      A.dims).buf = npSumKeepNorm A.buf (idxs.map Int.toNat) from rfl]
    rw [show (HFArray.mk (npSumKeepNorm A.buf (idxs.map Int.toNat))
      A.dims).dims = A.dims from rfl]
    rw [hsqz, except_bind_ok, hnewok]
  · rw [hnewinfo_len]
    have hpart := length_filter_bnot
      (fun (k : Nat) => idxs.contains ((k : Int)))
      (List.range A.dims.length)
    have hperm : ((List.range A.dims.length).filter
        (fun k => (idxs.map Int.toNat).contains k)).Perm
          (idxs.map Int.toNat) := by
      apply (List.perm_ext_iff_of_nodup
        (List.Nodup.filter _ (List.nodup_range _)) hnodupn).mpr
      intro k
      constructor
      · intro hk
        exact List.elem_iff.mp (List.mem_filter.mp hk).2
      · intro hk
        apply List.mem_filter.mpr
        refine ⟨?_, List.elem_iff.mpr hk⟩
        apply List.mem_range.mpr
        obtain ⟨i, hi, rfl⟩ := List.mem_map.mp hk
        rw [hlen]
        exact (hrange2 i hi).2
    have hPlen : ((List.range A.dims.length).filter
        (fun (k : Nat) => idxs.contains ((k : Int)))).length =
          idxs.length := by
      have h1 : ((List.range A.dims.length).filter
          (fun k => (idxs.map Int.toNat).contains k)).length =
            idxs.length := by
        rw [hperm.length_eq, List.length_map]
      rw [← h1]
      congr 1
      apply List.filter_congr
      intro k _
      exact (hpred k).symm
    rw [List.length_range] at hpart
    omega

/-- C5 witness: the amended reduction law evaluated on the concrete 3x2
array reduced over the repetition dimension by name. -/
theorem c5_witness :
    (exC2.dims.enum.filterMap (fun p =>
      if [(1 : Int)].contains ((p.1 : Int)) then none else some p.2)).length =
      exC2.dims.length - [(1 : Int)].length :=
  (c5_sum_removes_resolved_axes exC2 (AxSpec.single (AxElem.name "rep"))
    [exRep2] [(1 : Int)] true (by decide) (by rfl) (by decide)
    (by decide)).2.2

theorem sameDim_false_symm {a b : Dim} (h : sameDim a b = false) :
    sameDim b a = false := by
  rcases h2 : sameDim b a with _ | _
  · rfl
  · rw [sameDim_symm h2] at h
    exact Bool.noConfusion h

theorem takeWhile_middle (P : Dim → Bool) :
    ∀ (l1 : List Dim) (x : Dim) (l2 : List Dim),
      (∀ y ∈ l1, P y = true) → P x = false →
        (l1 ++ x :: l2).takeWhile P = l1 := by
  intro l1
  induction l1 with
  | nil =>
      intro x l2 _ hx
      simp [List.takeWhile_cons, hx]
  | cons a l1 ih =>
      intro x l2 h hx
      simp only [List.cons_append, List.takeWhile_cons,
        h a (List.mem_cons_self a l1), if_true]
      rw [ih x l2 (fun y hy => h y (List.mem_cons_of_mem a hy)) hx]

theorem map_indexOf_take (l : List Dim) (hl : l.Nodup) (m : Nat)
    (hm : m ≤ l.length) :
    (l.take m).map (fun x => l.indexOf x) = List.range m := by
  apply List.ext_getElem
  · simp
    omega
  · intro j h1 h2
    have hj : j < m := by simpa using h2
    have hjl : j < l.length := by omega
    simp only [List.getElem_map, List.getElem_range]
    rw [List.getElem_take]
    exact List.indexOf_getElem hl j hjl

theorem hftranspose_range_self (A : HFArray Int)
    (hlen : A.dims.length = A.buf.rank) (hbwf : A.buf.wf) :
    hftranspose A (List.range A.ndim) = A := by
  have hord : (if (List.range A.ndim).isEmpty then
      (List.range A.ndim).reverse else (List.range A.ndim)) =
        List.range A.ndim := by
    by_cases h : (List.range A.ndim).isEmpty = true
    · rw [if_pos h]
      rw [List.isEmpty_iff] at h
      rw [h]
      rfl
    · rw [if_neg h]
  have hdims : (List.range A.ndim).map (fun i => A.dims.getD i default) =
      A.dims := by
    have h1 := map_getD_range_self A.dims default
    have h2 : List.range A.dims.length = List.range A.ndim := by
      rw [hlen]
      rfl
    rw [h2] at h1
    exact h1
  have hn : A.buf.shape.length = A.ndim := rfl
  have hbuf : A.buf.transposeA (List.range A.ndim) = A.buf := by
    have hs : (List.range A.ndim).map (fun i => A.buf.shape.getD i 0) =
        A.buf.shape := by
      have h1 := map_getD_range_self A.buf.shape 0
      have h2 : List.range A.buf.shape.length = List.range A.ndim := by
        rw [hn]
      rw [h2] at h1
      exact h1
    show NDArray.ofFun ((List.range A.ndim).map
      (fun i => A.buf.shape.getD i 0)) _ = A.buf
    rw [hs]
    conv_rhs => rw [← NDArray.ofFun_get A.buf hbwf]
    unfold NDArray.ofFun
    refine congrArg _ ?_
    apply List.map_congr_left
    intro idx hidx
    obtain ⟨hlen2, _⟩ := (NDArray.mem_allIdx_getD _ _).mp hidx
    show A.buf.get _ = A.buf.get idx
    congr 1
    apply List.ext_getElem
    · simp [hlen2]
      rfl
    · intro k h1 h2
      have hk : k < A.ndim := by simpa using h1
      rw [← NDArray.getD_eq_getElem _ 0 k h1,
        ← NDArray.getD_eq_getElem _ 0 k h2]
      rw [NDArray.getD_map_lt _ _ k (by simpa using hk) 0 0]
      have hrg : (List.range A.buf.rank).getD k 0 = k := by
        rw [NDArray.getD_eq_getElem _ 0 k (by simpa using hk)]
        exact List.getElem_range k _
      rw [hrg]
      have hio : (List.range A.ndim).indexOf k = k := by
        have h3 := List.indexOf_getElem (List.nodup_range A.ndim) k
          (by simpa using hk)
        rw [List.getElem_range] at h3
        exact h3
      rw [hio]
  simp only [hftranspose]
  rw [hord, hbuf, hdims]

/-- C7: indexing a wellformed labeled array with a 1-d boolean labeled array
that shares exactly one of its dims (by identity, with identity-distinct
dims) collapses that shared dimension to a descriptor relabeled with the
mask-selected coordinates, while every other dimension keeps its descriptor
and its size; the selected axis gets the count of true mask entries. -/
theorem c7_boolean_indexing (A : HFArray Int) (mask : HFArray Bool) (d : Dim)
    (hlen : A.dims.length = A.buf.rank) (hbwf : A.buf.wf)
    (hnd : List.Pairwise (fun x y => sameDim x y = false) A.dims)
    (hmask : mask.dims = [d])
    (hmrank : mask.buf.rank = 1)
    (hmem : d ∈ A.dims) :
    getitem_bool A mask = Except.ok
      ⟨selectAxes A.buf (A.dims.indexOf d) mask.buf,
        A.dims.set (A.dims.indexOf d)
          { d with
            data := (d.data.zip mask.buf.data).filterMap
              (fun p => if p.2 then some p.1 else none) }⟩ ∧
    (selectAxes A.buf (A.dims.indexOf d) mask.buf).shape =
      A.buf.shape.set (A.dims.indexOf d) (truePosND mask.buf).length := by
  have hp : A.dims.indexOf d < A.dims.length := List.indexOf_lt_length.mpr hmem
  have hgetp : A.dims[A.dims.indexOf d] = d := List.getElem_indexOf hp
  have hdecomp : A.dims = A.dims.take (A.dims.indexOf d) ++ d ::
      A.dims.drop (A.dims.indexOf d + 1) := by
    conv_lhs => rw [← List.take_append_drop (A.dims.indexOf d) A.dims]
    rw [← List.get_drop_eq_drop A.dims (A.dims.indexOf d) hp, hgetp]
  have hndup : A.dims.Nodup := by
    refine hnd.imp ?_
    intro x y h heq
    subst heq
    rw [sameDim_refl] at h
    exact Bool.noConfusion h
  have hcross : ∀ y ∈ A.dims.take (A.dims.indexOf d), sameDim y d = false := by
    have h1 := hnd
    rw [hdecomp] at h1
    have h2 := (List.pairwise_append.mp h1).2.2
    intro y hy
    exact h2 y hy d (List.mem_cons_self _ _)
  have htw : A.dims.takeWhile (fun dim => ¬ dimsContains mask.dims dim) =
      A.dims.take (A.dims.indexOf d) := by
    conv_lhs => rw [hdecomp]
    apply takeWhile_middle
    · intro y hy
      rw [hmask]
      simp [dimsContains, sameDim_false_symm (hcross y hy)]
    · rw [hmask]
      simp [dimsContains, sameDim_refl]
  have htklen : (A.dims.take (A.dims.indexOf d)).length = A.dims.indexOf d := by
    rw [List.length_take]
    omega
  have hreo : reorder_dimensions A (A.dims.take (A.dims.indexOf d) ++
      mask.dims) = A := by
    rw [hmask]
    have htk1 : A.dims.take (A.dims.indexOf d) ++ [d] =
        A.dims.take (A.dims.indexOf d + 1) := by
      rw [List.take_succ, List.getElem?_eq_getElem hp, hgetp]
      rfl
    have hpart1 : (A.dims.take (A.dims.indexOf d) ++ [d]).map
        (fun x => A.dims.indexOf x) = List.range (A.dims.indexOf d + 1) := by
      rw [htk1]
      exact map_indexOf_take A.dims hndup (A.dims.indexOf d + 1) (by omega)
    have hpart2gen : ∀ (l : List Dim),
        l = A.dims.take (A.dims.indexOf d) ++ d ::
          A.dims.drop (A.dims.indexOf d + 1) →
        l.filter (fun x =>
          ¬ (A.dims.take (A.dims.indexOf d) ++ [d]).contains x) =
            A.dims.drop (A.dims.indexOf d + 1) := by
      intro l hl
      subst hl
      rw [List.filter_append, List.filter_cons]
      have hd1 : (decide ¬ ((A.dims.take (A.dims.indexOf d) ++ [d]).contains d
          = true)) = false := by
        simp
      rw [hd1]
      simp only [Bool.false_eq_true, if_false]
      have hnil : (A.dims.take (A.dims.indexOf d)).filter (fun x =>
          ¬ (A.dims.take (A.dims.indexOf d) ++ [d]).contains x) = [] := by
        rw [List.filter_eq_nil_iff]
        intro a ha
        have hca : (A.dims.take (A.dims.indexOf d) ++ [d]).contains a = true :=
          List.elem_iff.mpr (List.mem_append_left _ ha)
        simp [hca]
        intro h
        exact absurd ha h
      have hself : (A.dims.drop (A.dims.indexOf d + 1)).filter (fun x =>
          ¬ (A.dims.take (A.dims.indexOf d) ++ [d]).contains x) =
            A.dims.drop (A.dims.indexOf d + 1) := by
        rw [List.filter_eq_self]
        intro a ha
        have hnd2 : A.dims.Nodup := hndup
        rw [hdecomp] at hnd2
        obtain ⟨hn1, hn2⟩ := List.nodup_append.mp hnd2
        simp only [decide_not, Bool.not_eq_true']
        rcases hc : (A.dims.take (A.dims.indexOf d) ++ [d]).contains a
          with _ | _
        · rfl
        · exfalso
          have hmem2 := List.elem_iff.mp hc
          rcases List.mem_append.mp hmem2 with h3 | h3
          · exact hn2.2 h3 (List.mem_cons_of_mem d ha)
          · simp only [List.mem_singleton] at h3
            subst h3
            exact (List.nodup_cons.mp hn2.1).1 ha
      rw [hnil, hself]
      rfl
    have hpart2 := hpart2gen A.dims hdecomp
    have hpart3 : (A.dims.drop (A.dims.indexOf d + 1)).map
        (fun x => A.dims.indexOf x) =
          (List.range (A.dims.length - (A.dims.indexOf d + 1))).map
            (fun x => (A.dims.indexOf d + 1) + x) := by
      apply List.ext_getElem
      · simp
      · intro j h1 h2
        have hj : j < A.dims.length - (A.dims.indexOf d + 1) := by
          simpa using h2
        simp only [List.getElem_map, List.getElem_range]
        rw [List.getElem_drop]
        exact List.indexOf_getElem hndup _ (by omega)
    show hftranspose A _ = A
    rw [hpart2, hpart1, hpart3]
    have hrng : List.range (A.dims.indexOf d + 1) ++
        (List.range (A.dims.length - (A.dims.indexOf d + 1))).map
          (fun x => (A.dims.indexOf d + 1) + x) = List.range A.ndim := by
      rw [← List.range_add]
      have : A.dims.indexOf d + 1 + (A.dims.length - (A.dims.indexOf d + 1)) =
          A.dims.length := by omega
      rw [this, hlen]
      rfl
    rw [hrng]
    exact hftranspose_range_self A hlen hbwf
  have hp2 : A.dims.indexOf d < A.buf.shape.length := by
    have : A.buf.shape.length = A.buf.rank := rfl
    omega
  have hsa : (selectAxes A.buf (A.dims.indexOf d) mask.buf).shape =
      A.buf.shape.set (A.dims.indexOf d) (truePosND mask.buf).length := by
    show A.buf.shape.take (A.dims.indexOf d) ++ [(truePosND mask.buf).length]
      ++ A.buf.shape.drop (A.dims.indexOf d + mask.buf.rank) = _
    rw [hmrank, List.set_eq_take_cons_drop _ hp2, List.append_assoc]
    rfl
  refine ⟨?_, hsa⟩
  have hset : ∀ nd : Dim, A.dims.take (A.dims.indexOf d) ++ [nd] ++
      A.dims.drop (A.dims.indexOf d + 1) = A.dims.set (A.dims.indexOf d) nd := by
    intro nd
    rw [List.set_eq_take_cons_drop _ hp, List.append_assoc]
    rfl
  simp only [getitem_bool]
  rw [htw, hreo, hmask, htklen]
  rw [show ([d] : List Dim).length = 1 from rfl]
  rw [hset]
  simp only [hfnew]
  rw [if_pos ?cond]
  case cond =>
    rw [List.length_set]
    have h1 : (selectAxes A.buf (A.dims.indexOf d) mask.buf).rank =
        (A.buf.shape.set (A.dims.indexOf d)
          (truePosND mask.buf).length).length := by
      show (selectAxes A.buf (A.dims.indexOf d) mask.buf).shape.length = _
      rw [hsa]
    rw [h1, List.length_set]
    exact hlen

/-- C7 witness: boolean indexing of a concrete 1-d array by a concrete mask
sharing its only dimension. -/
theorem c7_witness :
    getitem_bool exA3 exM1 = Except.ok
      ⟨selectAxes exA3.buf (exA3.dims.indexOf exFreq3) exM1.buf,
        exA3.dims.set (exA3.dims.indexOf exFreq3)
          { exFreq3 with
            data := (exFreq3.data.zip exM1.buf.data).filterMap
              (fun p => if p.2 then some p.1 else none) }⟩ ∧
    (selectAxes exA3.buf (exA3.dims.indexOf exFreq3) exM1.buf).shape =
      exA3.buf.shape.set (exA3.dims.indexOf exFreq3)
        (truePosND exM1.buf).length :=
  c7_boolean_indexing exA3 exM1 exFreq3 (by decide)
    (show exA3.buf.data.length = exA3.buf.shape.prod by decide)
    (by decide) (by rfl) (by decide) (by decide)

theorem findIdx?_some_getD {p : Dim → Bool} {l : List Dim} {k : Nat} :
    l.findIdx? p = some k ↔
      k < l.length ∧ p (l.getD k default) = true ∧
        ∀ k2, k2 < k → p (l.getD k2 default) = false := by
  rw [List.findIdx?_eq_some_iff_findIdx_eq]
  constructor
  · rintro ⟨hk, hfi⟩
    obtain ⟨hp, hprev⟩ := (List.findIdx_eq hk).mp hfi
    refine ⟨hk, ?_, fun k2 hk2 => ?_⟩
    · rw [NDArray.getD_eq_getElem l default k hk]
      exact hp
    · rw [NDArray.getD_eq_getElem l default k2 (lt_trans hk2 hk)]
      exact hprev k2 hk2
  · rintro ⟨hk, hp, hprev⟩
    refine ⟨hk, (List.findIdx_eq hk).mpr ⟨?_, fun k2 hk2 => ?_⟩⟩
    · rw [← NDArray.getD_eq_getElem l default k hk]
      exact hp
    · rw [← NDArray.getD_eq_getElem l default k2 (lt_trans hk2 hk)]
      exact hprev k2 hk2

theorem prod_map_dimSizeIn (x : HFArray Int) : ∀ (L : List Dim),
    (L.map (fun d => dimSizeIn x d)).prod =
      ((L.filterMap (fun d => matching_index x.dims d)).map
        (fun i => x.buf.shape.getD i 0)).prod := by
  intro L
  induction L with
  | nil => rfl
  | cons d L ih =>
      rcases hmd : matching_index x.dims d with _ | i
      · simp only [List.map_cons, List.prod_cons, List.filterMap_cons, hmd]
        rw [ih]
        simp [dimSizeIn, hmd]
      · simp only [List.map_cons, List.prod_cons, List.filterMap_cons, hmd]
        rw [ih]
        simp [dimSizeIn, hmd]

theorem encode_compress (x : HFArray Int) : ∀ (L : List Dim) (idx : List Nat),
    idx ∈ NDArray.allIdx (L.map (fun d => dimSizeIn x d)) →
      NDArray.encode (L.map (fun d => dimSizeIn x d)) idx =
        NDArray.encode
          ((L.filterMap (fun d => matching_index x.dims d)).map
            (fun i => x.buf.shape.getD i 0))
          (compressIdx (fun d => matching_index x.dims d) L idx) := by
  intro L
  induction L with
  | nil =>
      intro idx h
      simp [NDArray.allIdx] at h
      subst h
      rfl
  | cons d L ih =>
      intro idx h
      rw [NDArray.mem_allIdx] at h
      cases h with
      | cons hi ht =>
          rename_i i is
          have htm : is ∈ NDArray.allIdx (L.map (fun d2 => dimSizeIn x d2)) :=
            (NDArray.mem_allIdx _ _).mpr ht
          rcases hmd : matching_index x.dims d with _ | j
          · have hd1 : dimSizeIn x d = 1 := by simp [dimSizeIn, hmd]
            have hi2 : i < dimSizeIn x d := hi
            have hi0 : i = 0 := by omega
            subst hi0
            simp only [List.map_cons, NDArray.encode, List.filterMap_cons, hmd,
              compressIdx, Option.isSome_none, Bool.false_eq_true, if_false,
              List.nil_append]
            rw [ih is htm]
            simp
          · simp only [List.map_cons, NDArray.encode, List.filterMap_cons, hmd,
              compressIdx, Option.isSome_some, if_true, List.singleton_append]
            rw [prod_map_dimSizeIn x L, ih is htm]

theorem compress_mem (x : HFArray Int) : ∀ (L : List Dim) (idx : List Nat),
    idx ∈ NDArray.allIdx (L.map (fun d => dimSizeIn x d)) →
      compressIdx (fun d => matching_index x.dims d) L idx ∈
        NDArray.allIdx
          ((L.filterMap (fun d => matching_index x.dims d)).map
            (fun i => x.buf.shape.getD i 0)) := by
  intro L
  induction L with
  | nil =>
      intro idx h
      simp [NDArray.allIdx] at h
      subst h
      simp [compressIdx, NDArray.allIdx]
  | cons d L ih =>
      intro idx h
      rw [NDArray.mem_allIdx] at h
      cases h with
      | cons hi ht =>
          rename_i i is
          have htm : is ∈ NDArray.allIdx (L.map (fun d2 => dimSizeIn x d2)) :=
            (NDArray.mem_allIdx _ _).mpr ht
          have hmem := ih is htm
          rcases hmd : matching_index x.dims d with _ | j
          · simpa [compressIdx, hmd, List.filterMap_cons] using hmem
          · rw [NDArray.mem_allIdx] at hmem ⊢
            simp only [compressIdx, hmd, Option.isSome_some, if_true,
              List.singleton_append, List.filterMap_cons, List.map_cons]
            refine List.Forall₂.cons ?_ hmem
            have hsz : dimSizeIn x d = x.buf.shape.getD j 0 := by
              simp [dimSizeIn, hmd]
            have hi2 : i < dimSizeIn x d := hi
            rw [← hsz]
            exact hi2

theorem compress_getD (m : Dim → Option Nat) :
    ∀ (L : List Dim) (idx : List Nat) (j : Nat), j < L.length →
      idx.length = L.length → (m (L.getD j default)).isSome = true →
        (compressIdx m L idx).getD (((L.take j).filterMap m).length) 0 =
          idx.getD j 0 := by
  intro L
  induction L with
  | nil => intro idx j hj _ _; exact absurd hj (Nat.not_lt_zero j)
  | cons d L ih =>
      intro idx j hj hlen hsome
      rcases idx with _ | ⟨i, is⟩
      · simp at hlen
      · rcases j with _ | j
        · simp only [List.getD_cons_zero] at hsome ⊢
          simp only [List.take_zero, List.filterMap_nil, List.length_nil]
          obtain ⟨v, hv⟩ := Option.isSome_iff_exists.mp hsome
          simp [compressIdx, hv]
        · have hj2 : j < L.length := by simpa using hj
          have hlen2 : is.length = L.length := by simpa using hlen
          have hsome2 : (m (L.getD j default)).isSome = true := by
            simpa using hsome
          have hih := ih is j hj2 hlen2 hsome2
          rcases hmd : m d with _ | v
          · simpa [compressIdx, hmd, List.take_succ_cons, List.filterMap_cons]
              using hih
          · simp only [compressIdx, hmd, Option.isSome_some, if_true,
              List.singleton_append, List.take_succ_cons, List.filterMap_cons,
              List.length_cons, List.getD_cons_succ]
            exact hih

theorem decomp_getD {α : Type} [Inhabited α] (l : List α) (j : Nat)
    (hj : j < l.length) :
    l = l.take j ++ l.getD j default :: l.drop (j + 1) := by
  conv_lhs => rw [← List.take_append_drop j l]
  congr 1
  rw [NDArray.getD_eq_getElem l default j hj]
  exact List.drop_eq_getElem_cons hj

/-- C4: change_shape to a target dimension collection containing all of the
array's own dims (by identity) yields an array labeled exactly by the target
collection, of rank the target's length, where a target axis owned by the
array keeps the original size of the matching source axis and an unowned
target axis has size 1; the buffer content is the source buffer read through
the target-order axis correspondence, i.e. the buffer transposed into target
order with size-1 axes inserted. -/
theorem c4_change_shape (x : HFArray Int) (newdims : List Dim)
    (hlen : x.dims.length = x.buf.rank)
    (hndA : List.Pairwise (fun a b => sameDim a b = false) x.dims)
    (hsup : ∀ d ∈ x.dims, dimsContains newdims d = true) :
    (change_shape x newdims).dims = newdims ∧
    (change_shape x newdims).buf.rank = newdims.length ∧
    (∀ j, j < newdims.length →
      ((∀ i, matching_index x.dims (newdims.getD j default) = some i →
          (change_shape x newdims).buf.shape.getD j 0 =
            x.buf.shape.getD i 0) ∧
        (matching_index x.dims (newdims.getD j default) = none →
          (change_shape x newdims).buf.shape.getD j 0 = 1))) ∧
    (∀ idx ∈ NDArray.allIdx (change_shape x newdims).buf.shape,
      (change_shape x newdims).buf.get idx =
        x.buf.get ((List.range x.buf.rank).map (fun k =>
          idx.getD (newdims.findIdx
            (fun d2 => sameDim d2 (x.dims.getD k default))) 0))) := by
  refine ⟨rfl, ?_, ?_, ?_⟩
  · show (newdims.map (fun d => dimSizeIn x d)).length = newdims.length
    exact List.length_map _ _
  · intro j hj
    constructor
    · intro i hmi
      show (newdims.map (fun d => dimSizeIn x d)).getD j 0 =
        x.buf.shape.getD i 0
      rw [NDArray.getD_map_lt (fun d => dimSizeIn x d) newdims j hj 0 default]
      show dimSizeIn x (newdims.getD j default) = x.buf.shape.getD i 0
      unfold dimSizeIn
      rw [hmi]
    · intro hmi
      show (newdims.map (fun d => dimSizeIn x d)).getD j 0 = 1
      rw [NDArray.getD_map_lt (fun d => dimSizeIn x d) newdims j hj 0 default]
      show dimSizeIn x (newdims.getD j default) = 1
      unfold dimSizeIn
      rw [hmi]
  · intro idx hidx
    have hidx2 : idx ∈ NDArray.allIdx (newdims.map (fun d => dimSizeIn x d)) :=
      hidx
    have hord : (if (newdims.filterMap
          (fun d => matching_index x.dims d)).isEmpty then
          (List.range x.ndim).reverse
        else newdims.filterMap (fun d => matching_index x.dims d)) =
        newdims.filterMap (fun d => matching_index x.dims d) := by
      rcases hne : newdims.filterMap (fun d => matching_index x.dims d) with
        _ | ⟨a, rest⟩
      · have hnil : x.dims = [] := by
          rcases hdims : x.dims with _ | ⟨d0, ds⟩
          · rfl
          · exfalso
            have hd0 : d0 ∈ x.dims := by
              rw [hdims]
              exact List.mem_cons_self d0 ds
            have hc := hsup d0 hd0
            simp only [dimsContains, List.any_eq_true] at hc
            obtain ⟨d2, hd2, hsd⟩ := hc
            have hex : ∃ y ∈ x.dims, (fun y => sameDim y d2) y = true :=
              ⟨d0, hd0, sameDim_symm hsd⟩
            have hsome := List.findIdx?_eq_some_of_exists hex
            have hmem2 : List.findIdx (fun y => sameDim y d2) x.dims ∈
                newdims.filterMap (fun d => matching_index x.dims d) :=
              List.mem_filterMap.mpr ⟨d2, hd2, hsome⟩
            rw [hne] at hmem2
            simp at hmem2
        have hrank0 : x.ndim = 0 := by
          have h1 := hlen
          rw [hnil] at h1
          simp only [List.length_nil] at h1
          show x.buf.rank = 0
          omega
        simp [hrank0]
      · rw [if_neg (by simp)]
    have hstep : (change_shape x newdims).buf.get idx =
        (x.buf.transposeA (newdims.filterMap
          (fun d => matching_index x.dims d))).get
          (compressIdx (fun d => matching_index x.dims d) newdims idx) := by
      show ((x.buf.transposeA (if (newdims.filterMap
            (fun d => matching_index x.dims d)).isEmpty then
            (List.range x.ndim).reverse
          else newdims.filterMap (fun d => matching_index x.dims d))).data).getD
          (NDArray.encode (newdims.map (fun d => dimSizeIn x d)) idx)
          default = _
      rw [hord]
      show _ = ((x.buf.transposeA (newdims.filterMap
          (fun d => matching_index x.dims d))).data).getD
          (NDArray.encode
            ((newdims.filterMap (fun d => matching_index x.dims d)).map
              (fun i => x.buf.shape.getD i 0))
            (compressIdx (fun d => matching_index x.dims d) newdims idx))
          default
      rw [encode_compress x newdims idx hidx2]
    rw [hstep]
    have hcm : compressIdx (fun d => matching_index x.dims d) newdims idx ∈
        NDArray.allIdx ((newdims.filterMap
          (fun d => matching_index x.dims d)).map
          (fun i => x.buf.shape.getD i 0)) := compress_mem x newdims idx hidx2
    show (NDArray.ofFun
        ((newdims.filterMap (fun d => matching_index x.dims d)).map
          (fun i => x.buf.shape.getD i 0))
        (fun idx2 => x.buf.get ((List.range x.buf.rank).map
          (fun k => idx2.getD
            ((newdims.filterMap
              (fun d => matching_index x.dims d)).indexOf k) 0)))).get
        (compressIdx (fun d => matching_index x.dims d) newdims idx) = _
    rw [NDArray.get_ofFun _ _ _ hcm]
    show x.buf.get ((List.range x.buf.rank).map (fun k =>
        (compressIdx (fun d => matching_index x.dims d) newdims idx).getD
          ((newdims.filterMap (fun d => matching_index x.dims d)).indexOf k)
          0)) = _
    congr 1
    apply List.map_congr_left
    intro k hk
    have hkr : k < x.buf.rank := List.mem_range.mp hk
    have hkd : k < x.dims.length := by omega
    have hdk_mem : x.dims.getD k default ∈ x.dims := by
      rw [NDArray.getD_eq_getElem x.dims default k hkd]
      exact List.getElem_mem hkd
    have hc := hsup _ hdk_mem
    simp only [dimsContains, List.any_eq_true] at hc
    obtain ⟨d2, hd2, hsd⟩ := hc
    have hex : ∃ y ∈ newdims,
        (fun d3 => sameDim d3 (x.dims.getD k default)) y = true :=
      ⟨d2, hd2, hsd⟩
    have hjf := List.findIdx?_eq_some_of_exists hex
    obtain ⟨hjlt, hjp, hjprev⟩ := findIdx?_some_getD.mp hjf
    have hjp2 : sameDim (newdims.getD (newdims.findIdx
        (fun d3 => sameDim d3 (x.dims.getD k default))) default)
        (x.dims.getD k default) = true := hjp
    have hjprev2 : ∀ k2, k2 < newdims.findIdx
        (fun d3 => sameDim d3 (x.dims.getD k default)) →
        sameDim (newdims.getD k2 default) (x.dims.getD k default) = false :=
      hjprev
    have hmj : matching_index x.dims
        (newdims.getD (newdims.findIdx
          (fun d3 => sameDim d3 (x.dims.getD k default))) default) = some k := by
      apply findIdx?_some_getD.mpr
      refine ⟨hkd, sameDim_symm hjp2, ?_⟩
      intro k2 hk2
      show sameDim (x.dims.getD k2 default) (newdims.getD (newdims.findIdx
        (fun d3 => sameDim d3 (x.dims.getD k default))) default) = false
      rcases hs2 : sameDim (x.dims.getD k2 default)
          (newdims.getD (newdims.findIdx
            (fun d3 => sameDim d3 (x.dims.getD k default))) default) with _ | _
      · rfl
      · exfalso
        have htr : sameDim (x.dims.getD k2 default)
            (x.dims.getD k default) = true := sameDim_trans hs2 hjp2
        have hk2d : k2 < x.dims.length := lt_trans hk2 hkd
        have hpair := List.pairwise_iff_getElem.mp hndA k2 k hk2d hkd hk2
        rw [NDArray.getD_eq_getElem x.dims default k2 hk2d,
          NDArray.getD_eq_getElem x.dims default k hkd] at htr
        rw [hpair] at htr
        exact absurd htr (by decide)
    have hdecN : newdims = newdims.take (newdims.findIdx
          (fun d3 => sameDim d3 (x.dims.getD k default))) ++
        newdims.getD (newdims.findIdx
          (fun d3 => sameDim d3 (x.dims.getD k default))) default ::
        newdims.drop (newdims.findIdx
          (fun d3 => sameDim d3 (x.dims.getD k default)) + 1) :=
      decomp_getD newdims _ hjlt
    have hfmdec : newdims.filterMap (fun d => matching_index x.dims d) =
        (newdims.take (newdims.findIdx
          (fun d3 => sameDim d3 (x.dims.getD k default)))).filterMap
          (fun d => matching_index x.dims d) ++
        k :: (newdims.drop (newdims.findIdx
          (fun d3 => sameDim d3 (x.dims.getD k default)) + 1)).filterMap
          (fun d => matching_index x.dims d) := by
      conv_lhs => rw [hdecN]
      rw [List.filterMap_append]
      congr 1
      simp only [List.filterMap_cons, hmj]
    have hknotin : k ∉ (newdims.take (newdims.findIdx
        (fun d3 => sameDim d3 (x.dims.getD k default)))).filterMap
        (fun d => matching_index x.dims d) := by
      intro hmem
      obtain ⟨d3, hd3, hm3⟩ := List.mem_filterMap.mp hmem
      obtain ⟨j3, hj3lt, hd3eq⟩ := List.mem_iff_getElem.mp hd3
      have hj3J : j3 < newdims.findIdx
          (fun d3 => sameDim d3 (x.dims.getD k default)) := by
        rw [List.length_take] at hj3lt
        omega
      have hj3n : j3 < newdims.length := lt_trans hj3J hjlt
      have hd3eq2 : d3 = newdims.getD j3 default := by
        rw [NDArray.getD_eq_getElem newdims default j3 hj3n, ← hd3eq]
        exact List.getElem_take newdims
      obtain ⟨_, hp3, _⟩ := findIdx?_some_getD.mp hm3
      have hp3b : sameDim (x.dims.getD k default) d3 = true := hp3
      have hcontra := hjprev2 j3 hj3J
      rw [← hd3eq2] at hcontra
      rw [sameDim_symm hp3b] at hcontra
      exact absurd hcontra (by decide)
    have hidxof : (newdims.filterMap
        (fun d => matching_index x.dims d)).indexOf k =
        ((newdims.take (newdims.findIdx
          (fun d3 => sameDim d3 (x.dims.getD k default)))).filterMap
          (fun d => matching_index x.dims d)).length := by
      rw [hfmdec, List.indexOf_append_of_not_mem hknotin,
        List.indexOf_cons_self]
      omega
    rw [hidxof]
    have hlenidx : idx.length = newdims.length := by
      have h1 := ((NDArray.mem_allIdx_getD _ _).mp hidx2).1
      rw [List.length_map] at h1
      exact h1
    have hsome : ((fun d => matching_index x.dims d)
        (newdims.getD (newdims.findIdx
          (fun d3 => sameDim d3 (x.dims.getD k default))) default)).isSome =
        true := by
      show (matching_index x.dims (newdims.getD (newdims.findIdx
        (fun d3 => sameDim d3 (x.dims.getD k default))) default)).isSome = true
      rw [hmj]
      rfl
    exact compress_getD (fun d => matching_index x.dims d) newdims idx
      (newdims.findIdx (fun d3 => sameDim d3 (x.dims.getD k default)))
      hjlt hlenidx hsome

/-- C4 witness: a concrete 1-d array reshaped to a two-dim target collection
that contains its own dim plus a new one. -/
theorem c4_witness :
    (change_shape exA1 [exFreq, exRep3]).dims = [exFreq, exRep3] ∧
    (change_shape exA1 [exFreq, exRep3]).buf.rank = [exFreq, exRep3].length ∧
    (∀ j, j < [exFreq, exRep3].length →
      ((∀ i, matching_index exA1.dims ([exFreq, exRep3].getD j default) =
          some i →
          (change_shape exA1 [exFreq, exRep3]).buf.shape.getD j 0 =
            exA1.buf.shape.getD i 0) ∧
        (matching_index exA1.dims ([exFreq, exRep3].getD j default) = none →
          (change_shape exA1 [exFreq, exRep3]).buf.shape.getD j 0 = 1))) ∧
    (∀ idx ∈ NDArray.allIdx (change_shape exA1 [exFreq, exRep3]).buf.shape,
      (change_shape exA1 [exFreq, exRep3]).buf.get idx =
        exA1.buf.get ((List.range exA1.buf.rank).map (fun k =>
          idx.getD ([exFreq, exRep3].findIdx
            (fun d2 => sameDim d2 (exA1.dims.getD k default))) 0))) :=
  c4_change_shape exA1 [exFreq, exRep3] (by decide) (by decide) (by decide)

end HFT
